import Mathlib

/-!
Sugar request-parameter encoders (`encoder.go`).

A shallow embedding of the encoder chain of `encoder.go` and of the handlers
registered in it, followed by theorems about the dispatch chain, the path
substitution loop, the scalar converter and the body/header handlers.

Conventions of the embedding

* A Go `string` is a sequence of bytes.  It is embedded as `List Char`, one
  `Char` per byte; every operation used by the source (indexing, slicing,
  comparison with `":"` and `"/"`, `strings.Replace`) acts position-wise, so
  the embedding is faithful on byte strings.
* A Go `map[string]T` is embedded as an association list; `m[k]` is the first
  entry for `k`, `range m` visits the entries in list order (Go leaves the
  order unspecified).
* `*http.Request` is a mutable object: handlers take the request inside the
  `RequestContext` and the request after the call is part of the `Outcome`.
  The pointers `context.Request`, `req.URL` and the map `req.Header` are
  assumed non-nil, as `http.NewRequest` makes them.
* A Go panic raised by a handler is the outcome `Outcome.panic`, one raised by
  the indexing in `Next` is `Outcome.indexPanic`; both keep the chain as the
  panic leaves it, which is what a caller that recovers finds.  A loop that has
  not finished within the supplied number of iterations is
  `Outcome.outOfFuel`.
-/

set_option maxRecDepth 100000

namespace Sugar

/-! ## Strings and maps -/

/-- A Go `string`: a sequence of bytes, one `Char` per byte. -/
abbrev GoString := List Char

/-- `m[k]` on a Go map embedded as an association list. -/
def mapGet {α : Type} (m : List (GoString × α)) (k : GoString) : Option α :=
  match m with
  | [] => none
  | (k', v) :: rest => if k' = k then some v else mapGet rest k

/-- `m[k] = v` on a Go map embedded as an association list. -/
def mapSet {α : Type} (m : List (GoString × α)) (k : GoString) (v : α) :
    List (GoString × α) :=
  match m with
  | [] => [(k, v)]
  | (k', v') :: rest => if k' = k then (k, v) :: rest else (k', v') :: mapSet rest k v

/-- `url.Values` and `http.Header`: `map[string][]string`. -/
abbrev Values := List (GoString × List GoString)

/-- `m[k] = append(m[k], v)`; this is `url.Values.Add`. -/
def Values.Add (m : Values) (k v : GoString) : Values :=
  mapSet m k ((mapGet m k).getD [] ++ [v])

/-! ## The request -/

/-- The fields of `*http.Request` that the encoders read or write. -/
structure Request where
  /-- `req.Method` -/
  Method : GoString
  /-- `req.URL.Path` -/
  Path : GoString
  /-- `req.URL.RawQuery` -/
  RawQuery : GoString
  /-- `req.Header`; cookies live under the key `Cookie` -/
  Header : Values
  /-- `req.Body`, `none` for a nil body, else the bytes the reader yields -/
  Body : Option GoString
  /-- `req.PostForm`, `none` for a nil map -/
  PostForm : Option Values
  /-- `req.Form`, `none` for a nil map -/
  Form : Option Values
  deriving DecidableEq

/-! ## Dynamic values (`interface{}`) -/

/-- The widths of Go's integer types; `platform` is `int` / `uint`. -/
inductive IntWidth
  | w8 | w16 | w32 | w64 | platform
  deriving DecidableEq, Repr

/-- Number of bits of an integer type (`int` and `uint` taken as 64 bit). -/
def IntWidth.bits : IntWidth → Nat
  | .w8 => 8
  | .w16 => 16
  | .w32 => 32
  | .w64 => 64
  | .platform => 64

/-- A value held in an `interface{}`, by dynamic type. -/
inductive Value
  /-- the nil interface -/
  | nil
  | bool (b : Bool)
  /-- `int8`, `int16`, `int32`, `int64`, `int` -/
  | int (w : IntWidth) (n : Int)
  /-- `uint8`, `uint16`, `uint32`, `uint64`, `uint` -/
  | uint (w : IntWidth) (n : Nat)
  /-- a `float32`, by its bit pattern -/
  | float32 (bits : Nat)
  /-- a `float64`, by its bit pattern -/
  | float64 (bits : Nat)
  | string (s : GoString)
  /-- `[]byte` -/
  | bytes (b : Option GoString)
  /-- `List`, `[]interface{}` or an array of `interface{}` -/
  | list (xs : List Value)
  /-- a slice or array whose element type is neither an interface nor a
  pointer, such as `[]int` or `[]string` -/
  | slice (xs : List Value)
  /-- a slice or array of pointers; `none` is a nil pointer -/
  | ptrSlice (xs : List (Option Value))
  /-- `Map` -/
  | map (m : List (GoString × Value))
  | Path (m : List (GoString × Value))
  | Query (m : List (GoString × Value))
  | Header (m : List (GoString × Value))
  | Form (m : List (GoString × Value))
  | Cookie (m : List (GoString × Value))
  | MultiPart (m : List (GoString × Value))
  | Json (Payload : Value)
  | Xml (Payload : Value)
  | User (Name Password : GoString)
  /-- `Mapper`; `none` is a nil function -/
  | Mapper (mapper : Option (Request → Request))
  /-- `*os.File`: its name and what reading it yields (`none`: a read error) -/
  | file (name : GoString) (content : Option GoString)
  /-- a non-nil value of any other type that is not an array or slice
  (a struct, a pointer, a named scalar type, ...) -/
  | other (tag : Nat)

/-- Well-formedness of integer values: the number fits the width. -/
def Value.inRange : Value → Prop
  | .int w n => -(2 ^ (w.bits - 1) : Int) ≤ n ∧ n < (2 ^ (w.bits - 1) : Int)
  | .uint w n => n < 2 ^ w.bits
  | _ => True

/-! ## Library functions -/

/-- The functions of Go's standard library that the encoders call and that are
not modelled here. -/
structure StdLib where
  /-- `strconv.FormatFloat(float64(x), 'f', -1, 32)` of a `float32` -/
  formatFloat32 : Nat → GoString
  /-- `strconv.FormatFloat(x, 'f', -1, 64)` -/
  formatFloat64 : Nat → GoString
  /-- `json.Marshal`; `none` is a marshalling error -/
  jsonMarshal : Value → Option GoString
  /-- `xml.Marshal`; `none` is a marshalling error -/
  xmlMarshal : Value → Option GoString
  /-- the `name=value` text `Request.AddCookie` makes of a cookie -/
  cookieString : GoString → GoString → GoString
  /-- the `Authorization` value `Request.SetBasicAuth` computes -/
  basicAuth : GoString → GoString → GoString
  /-- the boundary `multipart.NewWriter` draws -/
  boundary : GoString
  /-- `Writer.WriteField(k, v)`: the buffer after the field is written, given
  the boundary and the buffer before -/
  writeField : GoString → GoString → GoString → GoString → GoString
  /-- `Writer.CreateFormFile(field, file)`: the buffer after the part header is
  written, given the boundary and the buffer before; `none` is a write error -/
  createFormFile : GoString → GoString → GoString → GoString → Option GoString
  /-- `Writer.Close`: the buffer after the closing boundary line is written -/
  closeWriter : GoString → GoString → GoString
  /-- `Writer.FormDataContentType` for a boundary -/
  formDataContentType : GoString → GoString

/-- `strconv.FormatBool`. -/
def FormatBool (b : Bool) : GoString :=
  if b then "true".toList else "false".toList

/-- The digit loop of `strconv.formatBits` in base 10: the digits of `u` are
pushed in front of `acc`, least significant first. -/
def formatBits : Nat → Nat → GoString → GoString
  | 0, u, acc => Nat.digitChar (u % 10) :: acc
  | fuel + 1, u, acc =>
    if u ≥ 10 then formatBits fuel (u / 10) (Nat.digitChar (u % 10) :: acc)
    else Nat.digitChar u :: acc

/-- `strconv.FormatUint(u, 10)`. -/
def FormatUint (u : Nat) : GoString :=
  formatBits u u []

/-- `strconv.FormatInt(i, 10)`. -/
def FormatInt (i : Int) : GoString :=
  if i < 0 then '-' :: FormatUint (-i).toNat else FormatUint i.toNat

/-- The conversion `uint64(x)` of an unsigned value. -/
def toUint64 (n : Nat) : Nat := n % 2 ^ 64

/-- The conversion `int64(x)` of a signed value. -/
def toInt64 (n : Int) : Int := (n + 2 ^ 63) % 2 ^ 64 - 2 ^ 63

/-! ## The scalar converter -/

/-- `ToString` (also bound to the variable `Encode`): the type switch of the
source; every type without a case leaves `s` at its zero value `""`. -/
def ToString (lib : StdLib) (v : Value) : GoString :=
  match v with
  | .bool x => FormatBool x
  | .uint _ x => FormatUint (toUint64 x)
  | .int _ x => FormatInt (toInt64 x)
  | .float32 x => lib.formatFloat32 x
  | .float64 x => lib.formatFloat64 x
  | .string x => x
  | _ => []

/-! ## `net/url`: query strings -/

/-- `strings.Cut(s, sep)` for a one-byte separator: the text before the first
`sep` and, when there is one, the text after it. -/
def cut (sep : Char) : GoString → GoString × Option GoString
  | [] => ([], none)
  | c :: cs =>
    if c = sep then ([], some cs)
    else ((c :: (cut sep cs).1), (cut sep cs).2)

/-- The pieces of `s` between the separators `sep`. -/
def splitOn (sep : Char) : GoString → List GoString
  | [] => [[]]
  | c :: cs =>
    if c = sep then [] :: splitOn sep cs
    else
      match splitOn sep cs with
      | [] => [[c]]
      | p :: ps => (c :: p) :: ps

/-- The value of a hexadecimal digit (`url.unhex`), `none` if `c` is none. -/
def unhex (c : Char) : Option Nat :=
  if '0' ≤ c ∧ c ≤ '9' then some (c.toNat - '0'.toNat)
  else if 'a' ≤ c ∧ c ≤ 'f' then some (c.toNat - 'a'.toNat + 10)
  else if 'A' ≤ c ∧ c ≤ 'F' then some (c.toNat - 'A'.toNat + 10)
  else none

/-- `url.QueryUnescape`; `none` is an `EscapeError`. -/
def QueryUnescape : GoString → Option GoString
  | [] => some []
  | '%' :: h :: l :: rest =>
    match unhex h, unhex l, QueryUnescape rest with
    | some a, some b, some r => some (Char.ofNat (16 * a + b) :: r)
    | _, _, _ => none
  | '%' :: _ => none
  | '+' :: rest => (QueryUnescape rest).map (' ' :: ·)
  | c :: rest => (QueryUnescape rest).map (c :: ·)

/-- The bytes `url.QueryEscape` leaves as they are. -/
def unreserved (c : Char) : Bool :=
  c.isAlphanum || c = '-' || c = '_' || c = '.' || c = '~'

/-- An upper-case hexadecimal digit. -/
def upperhex (n : Nat) : Char :=
  if n < 10 then Char.ofNat ('0'.toNat + n) else Char.ofNat ('A'.toNat + (n - 10))

/-- `url.QueryEscape`. -/
def QueryEscape : GoString → GoString
  | [] => []
  | c :: cs =>
    if c = ' ' then '+' :: QueryEscape cs
    else if unreserved c then c :: QueryEscape cs
    else '%' :: upperhex (c.toNat / 16 % 16) :: upperhex (c.toNat % 16) :: QueryEscape cs

/-- The loop of `url.parseQuery` over the `&`-separated pieces: the pairs
parsed so far and whether an error was met. -/
def parseQueryPieces : List GoString → Values → Bool → Values × Bool
  | [], m, err => (m, err)
  | piece :: rest, m, err =>
    if piece.contains ';' then parseQueryPieces rest m true
    else if piece = [] then parseQueryPieces rest m err
    else
      match QueryUnescape (cut '=' piece).1,
        QueryUnescape ((cut '=' piece).2.getD []) with
      | some key, some value => parseQueryPieces rest (Values.Add m key value) err
      | _, _ => parseQueryPieces rest m true

/-- `url.ParseQuery`: the values and whether an error is returned with them. -/
def ParseQuery (query : GoString) : Values × Bool :=
  if query = [] then ([], false) else parseQueryPieces (splitOn '&' query) [] false

/-- Byte-wise `a <= b` on strings, the order of `sort.Strings`. -/
def strLe : GoString → GoString → Bool
  | [], _ => true
  | _ :: _, [] => false
  | a :: as, b :: bs => a.toNat < b.toNat || (a.toNat = b.toNat && strLe as bs)

/-- Insertion of a key into a sorted list of keys. -/
def insertKey (k : GoString) : List GoString → List GoString
  | [] => [k]
  | x :: xs => if strLe k x then k :: x :: xs else x :: insertKey k xs

/-- `sort.Strings`. -/
def sortStrings : List GoString → List GoString
  | [] => []
  | k :: ks => insertKey k (sortStrings ks)

/-- The `key=value` pairs `Values.Encode` writes for one key. -/
def encodePairs (k : GoString) (vs : List GoString) : List GoString :=
  vs.map fun v => QueryEscape k ++ '=' :: QueryEscape v

/-- `url.Values.Encode`: keys sorted, pairs joined by `&`. -/
def Values.Encode (v : Values) : GoString :=
  List.intercalate ['&']
    ((sortStrings (v.map Prod.fst)).flatMap fun k => encodePairs k ((mapGet v k).getD []))

/-- `URL.Query()`: the parsed `RawQuery`, errors dropped. -/
def Request.Query (req : Request) : Values :=
  (ParseQuery req.RawQuery).1

/-! ## `net/http`: headers, cookies, forms -/

/-- `validHeaderFieldByte` of `net/textproto`: the token characters. -/
def validHeaderFieldByte (c : Char) : Bool :=
  c.isAlphanum || [33, 35, 36, 37, 38, 39, 42, 43, 45, 46, 94, 95, 96, 124, 126].contains c.toNat

/-- The rewriting loop of `canonicalMIMEHeaderKey`: upper case at the start and
after each `-`, lower case elsewhere. -/
def canonLoop : Bool → GoString → GoString
  | _, [] => []
  | upper, c :: cs =>
    if upper && c.isLower then c.toUpper :: canonLoop (c.toUpper = '-') cs
    else if !upper && c.isUpper then c.toLower :: canonLoop (c.toLower = '-') cs
    else c :: canonLoop (c = '-') cs

/-- `textproto.CanonicalMIMEHeaderKey`: a key with a byte that is not a token
character is returned unchanged. -/
def CanonicalMIMEHeaderKey (s : GoString) : GoString :=
  if s.all validHeaderFieldByte then canonLoop true s else s

/-- `Header.Add`. -/
def HeaderAdd (h : Values) (key value : GoString) : Values :=
  Values.Add h (CanonicalMIMEHeaderKey key) value

/-- `Header.Set`. -/
def HeaderSet (h : Values) (key value : GoString) : Values :=
  mapSet h (CanonicalMIMEHeaderKey key) [value]

/-- `Header.Get`: the first value of the canonical key, `""` without one. -/
def HeaderGet (h : Values) (key : GoString) : GoString :=
  match mapGet h (CanonicalMIMEHeaderKey key) with
  | some (v :: _) => v
  | _ => []

/-- `Request.AddCookie`: the cookie is appended to the `Cookie` header line. -/
def Request.AddCookie (lib : StdLib) (req : Request) (name value : GoString) : Request :=
  let s := lib.cookieString name value
  let c := HeaderGet req.Header "Cookie".toList
  if c ≠ [] then { req with Header := HeaderSet req.Header "Cookie".toList (c ++ "; ".toList ++ s) }
  else { req with Header := HeaderSet req.Header "Cookie".toList s }

/-- `Request.SetBasicAuth`. -/
def Request.SetBasicAuth (lib : StdLib) (req : Request) (username password : GoString) :
    Request :=
  { req with Header :=
      HeaderSet req.Header "Authorization".toList ("Basic ".toList ++ lib.basicAuth username password) }

/-- `copyValues(dst, src)` of `net/http`. -/
def copyValues (dst : Values) : Values → Values
  | [] => dst
  | (k, vs) :: rest => copyValues (mapSet dst k ((mapGet dst k).getD [] ++ vs)) rest

/-- The statements `req.PostForm = form; err := req.ParseForm()`.  `PostForm`
is non-nil when `ParseForm` runs, so the branch that reads the body is not
taken: only `req.Form`, when nil, is filled from `PostForm` and the URL query.
The result is the request and whether `ParseForm` returned an error. -/
def Request.ParseFormWith (req : Request) (form : Values) : Request × Bool :=
  let req := { req with PostForm := some form }
  match req.Form with
  | some _ => (req, false)
  | none =>
    let copied : Option Values := if form.length > 0 then some (copyValues [] form) else none
    let parsed := ParseQuery req.RawQuery
    match copied with
    | none => ({ req with Form := some parsed.1 }, parsed.2)
    | some f => ({ req with Form := some (copyValues f parsed.1) }, parsed.2)

/-! ## `strings.Replace` and `reflect` -/

/-- The scan of `strings.Replace(s, old, new, -1)`: `skip` bytes of a match
found earlier are still to be passed over. -/
def replaceFrom (old new : GoString) : Nat → GoString → GoString
  | _, [] => []
  | skip + 1, _ :: cs => replaceFrom old new skip cs
  | 0, c :: cs =>
    if old.isPrefixOf (c :: cs) then new ++ replaceFrom old new (old.length - 1) cs
    else c :: replaceFrom old new 0 cs

/-- `strings.Replace(s, old, new, -1)` for a non-empty `old` (the path encoder
only passes `path[i:j]` with `i < j`): the non-overlapping occurrences of
`old`, found left to right, are replaced by `new`. -/
def Replace (s old new : GoString) : GoString :=
  replaceFrom old new 0 s

/-- Whether `reflect.TypeOf(v).Kind()` is `reflect.Array` or `reflect.Slice`;
`none` when `v` is nil: `reflect.TypeOf(nil)` is nil and `.Kind()` panics. -/
def kindIsSequence : Value → Option Bool
  | .nil => none
  | .bytes _ => some true
  | .list _ => some true
  | .slice _ => some true
  | .ptrSlice _ => some true
  | _ => some false

/-- What `a.Index(i).Elem().Interface()` gives for each element of a sequence,
`none` where it panics: `Elem` panics unless the element's kind is interface
or pointer, and `Interface` panics on the zero `reflect.Value` that `Elem`
returns for a nil interface or nil pointer. -/
def elemInterfaces : Value → List (Option Value)
  | .list xs => xs.map fun x => match x with
    | .nil => none
    | y => some y
  | .ptrSlice xs => xs
  | .slice xs => xs.map fun _ => none
  | .bytes b => (b.getD []).map fun _ => none
  | _ => []

/-- The loop of `foreach` over the elements: `f` is called on each element in
index order; `none` is a panic. -/
def foreachLoop {σ : Type} (f : Value → σ → σ) : List (Option Value) → σ → Option σ
  | [], s => some s
  | none :: _, _ => none
  | some x :: rest, s => foreachLoop f rest (f x s)

/-- `foreach(v, f)`, the callback `f` acting on a state `σ`. -/
def foreach {σ : Type} (v : Value) (f : Value → σ → σ) (s : σ) : Option σ :=
  foreachLoop f (elemInterfaces v) s

/-! ## The chain -/

/-- The errors the encoders return. -/
inductive GoError
  /-- the package variable `EncoderNotFound` -/
  | EncoderNotFound
  /-- the error of `url.ParseQuery` returned by `ParseForm` -/
  | ParseQuery
  /-- an error of `json.Marshal` -/
  | JsonMarshal
  /-- an error of `xml.Marshal` -/
  | XmlMarshal
  /-- an error creating or copying a multipart file part -/
  | FileError
  deriving DecidableEq, Repr

/-- The encoders defined in `encoder.go`. -/
inductive Encoder
  | PathEncoder | QueryEncoder | HeaderEncoder | FormEncoder | JsonEncoder | CookieEncoder
  | BasicAuthEncoder | MultiPartEncoder | PlainTextEncoder | XmlEncoder | MapperEncoder
  deriving DecidableEq, Repr

/-- `EncoderChain`: the handlers and the cursor. -/
structure EncoderChain where
  encoders : List Encoder
  index : Nat
  deriving DecidableEq, Repr

/-- `RequestContext`. -/
structure RequestContext where
  Request : Request
  /-- the identity of the `*http.Response`, `none` for nil -/
  Response : Option Nat
  Params : List Value
  Param : Value
  ParamIndex : Int

/-- How a call of `Next` or of a handler's `Encode` ends: it returns an error
value (`none` is Go's nil error) leaving the request and the chain in some
state, it panics, or it is still running when the fuel is used up. -/
inductive Outcome
  | ret (err : Option GoError) (req : Request) (chain : EncoderChain)
  /-- a panic raised inside a handler (a nil function called, a `reflect` call
  on a value it does not accept), the chain being in the state `chain`; the
  handlers that panic do so before they assign to the request -/
  | panic (chain : EncoderChain)
  /-- the run-time panic of the indexing `c.encoders[c.index-1]` in `Next`, the
  chain being in the state `chain` -/
  | indexPanic (chain : EncoderChain)
  | outOfFuel
  deriving DecidableEq

/-- Modelled from the spec: the header name constant `ContentType`, declared
outside `encoder.go`. -/
def ContentType : GoString := "Content-Type".toList

/-- Modelled from the spec: the constant `ContentTypeForm`. -/
def ContentTypeForm : GoString := "application/x-www-form-urlencoded".toList

/-- Modelled from the spec: the constant `ContentTypeJsonUtf8`. -/
def ContentTypeJsonUtf8 : GoString := "application/json; charset=utf-8".toList

/-- Modelled from the spec: the constant `ContentTypePlainText`. -/
def ContentTypePlainText : GoString := "text/plain; charset=utf-8".toList

/-- Modelled from the spec: the constant `ContentTypeXmlUtf8`. -/
def ContentTypeXmlUtf8 : GoString := "text/xml; charset=utf-8".toList

/-- The statement `if _, ok := req.Header[ContentType]; !ok
{ req.Header.Set(ContentType, value) }`. -/
def setDefaultContentType (req : Request) (value : GoString) : Request :=
  match mapGet req.Header ContentType with
  | some _ => req
  | none => { req with Header := HeaderSet req.Header ContentType value }

/-! ## `PathEncoder` -/

/-- The inner loop `for ; j < len(path); j++ { if path[j] == "/" { break } }`:
the value of `j` when it ends. -/
def keyEnd (path : GoString) : Nat → Nat → Nat
  | 0, j => j
  | fuel + 1, j =>
    if j < path.length then
      if path[j]? = some '/' then j else keyEnd path fuel (j + 1)
    else j

/-- The loop `for i := 0; i < len(req.URL.Path); i++` of `PathEncoder.Encode`
from the state `(path, i)`: the path when the loop ends, `none` if it has not
ended after `fuel` iterations. -/
def pathLoop (lib : StdLib) (pathParams : List (GoString × Value)) :
    Nat → GoString → Nat → Option GoString
  | 0, _, _ => none
  | fuel + 1, path, i =>
    if i < path.length then
      if path[i]? = some ':' then
        let j := keyEnd path (path.length - (i + 1)) (i + 1)
        let key := (path.drop (i + 1)).take (j - (i + 1))
        let value := (mapGet pathParams key).getD Value.nil
        pathLoop lib pathParams fuel
          (Replace path ((path.drop i).take (j - i)) (ToString lib value)) (i + 1)
      else pathLoop lib pathParams fuel path (i + 1)
    else some path

/-- `PathEncoder.Encode`. -/
def PathEncoder.Encode (lib : StdLib) (fuel : Nat)
    (next : EncoderChain → RequestContext → Outcome)
    (context : RequestContext) (chain : EncoderChain) : Outcome :=
  match context.Param with
  | .Path pathParams =>
    match pathLoop lib pathParams fuel context.Request.Path 0 with
    | some path => .ret none { context.Request with Path := path } chain
    | none => .outOfFuel
  | _ => next chain context

/-! ## `QueryEncoder`, `HeaderEncoder`, `FormEncoder` -/

/-- The loop `for k, v := range params` of `QueryEncoder.Encode` and
`FormEncoder.Encode`: a sequence adds one entry per element, any other value
one entry; `none` is a panic. -/
def addParams (lib : StdLib) : List (GoString × Value) → Values → Option Values
  | [], q => some q
  | (k, v) :: rest, q =>
    match kindIsSequence v with
    | none => none
    | some true =>
      match foreach v (fun i q => Values.Add q k (ToString lib i)) q with
      | none => none
      | some q' => addParams lib rest q'
    | some false => addParams lib rest (Values.Add q k (ToString lib v))

/-- `QueryEncoder.Encode`. -/
def QueryEncoder.Encode (lib : StdLib)
    (next : EncoderChain → RequestContext → Outcome)
    (context : RequestContext) (chain : EncoderChain) : Outcome :=
  match context.Param with
  | .Query queryParams =>
    match addParams lib queryParams context.Request.Query with
    | none => .panic chain
    | some q => .ret none { context.Request with RawQuery := Values.Encode q } chain
  | _ => next chain context

/-- The loop `for k, v := range headerParams` of `HeaderEncoder.Encode`. -/
def addHeaders (lib : StdLib) : List (GoString × Value) → Values → Values
  | [], h => h
  | (k, v) :: rest, h => addHeaders lib rest (HeaderAdd h k (ToString lib v))

/-- `HeaderEncoder.Encode`. -/
def HeaderEncoder.Encode (lib : StdLib)
    (next : EncoderChain → RequestContext → Outcome)
    (context : RequestContext) (chain : EncoderChain) : Outcome :=
  match context.Param with
  | .Header headerParams =>
    .ret none { context.Request with Header := addHeaders lib headerParams context.Request.Header }
      chain
  | _ => next chain context

/-- `FormEncoder.Encode`. -/
def FormEncoder.Encode (lib : StdLib)
    (next : EncoderChain → RequestContext → Outcome)
    (context : RequestContext) (chain : EncoderChain) : Outcome :=
  match context.Param with
  | .Form formParams =>
    match addParams lib formParams [] with
    | none => .panic chain
    | some form =>
      let parsed := context.Request.ParseFormWith form
      if parsed.2 then .ret (some .ParseQuery) parsed.1 chain
      else .ret none (setDefaultContentType parsed.1 ContentTypeForm) chain
  | _ => next chain context

/-! ## Body encoders, cookies, credentials -/

/-- `json.RawMessage(x).MarshalJSON()`: a nil message is `null`, any other is
returned as it is, and the error is always nil. -/
def RawMessageMarshalJSON (m : Option GoString) : GoString :=
  match m with
  | none => "null".toList
  | some b => b

/-- `JsonEncoder.Encode`. -/
def JsonEncoder.Encode (lib : StdLib)
    (next : EncoderChain → RequestContext → Outcome)
    (context : RequestContext) (chain : EncoderChain) : Outcome :=
  match context.Param with
  | .Json payload =>
    let b : Option GoString :=
      match payload with
      | .bytes x => some (RawMessageMarshalJSON x)
      | .string x => some (RawMessageMarshalJSON (some x))
      | x => lib.jsonMarshal x
    match b with
    | none => .ret (some .JsonMarshal) context.Request chain
    | some b =>
      .ret none (setDefaultContentType { context.Request with Body := some b } ContentTypeJsonUtf8)
        chain
  | _ => next chain context

/-- The loop `for k, v := range cookieParams` of `CookieEncoder.Encode`. -/
def addCookies (lib : StdLib) : List (GoString × Value) → Request → Request
  | [], req => req
  | (k, v) :: rest, req => addCookies lib rest (req.AddCookie lib k (ToString lib v))

/-- `CookieEncoder.Encode`. -/
def CookieEncoder.Encode (lib : StdLib)
    (next : EncoderChain → RequestContext → Outcome)
    (context : RequestContext) (chain : EncoderChain) : Outcome :=
  match context.Param with
  | .Cookie cookieParams => .ret none (addCookies lib cookieParams context.Request) chain
  | _ => next chain context

/-- `BasicAuthEncoder.Encode`. -/
def BasicAuthEncoder.Encode (lib : StdLib)
    (next : EncoderChain → RequestContext → Outcome)
    (context : RequestContext) (chain : EncoderChain) : Outcome :=
  match context.Param with
  | .User name password => .ret none (context.Request.SetBasicAuth lib name password) chain
  | _ => next chain context

/-- `writeFile`: the part header, then the copy of the file; the buffer
afterwards, `none` for an error. -/
def writeFile (lib : StdLib) (buf fieldName fileName : GoString) (file : Option GoString) :
    Option GoString :=
  match lib.createFormFile lib.boundary buf fieldName fileName with
  | none => none
  | some buf' =>
    match file with
    | none => none
    | some content => some (buf' ++ content)

/-- The loop `for k, v := range multiPartParams` of `MultiPartEncoder.Encode`
on the writer's buffer; `none` is the early `return err`. -/
def writeParts (lib : StdLib) : List (GoString × Value) → GoString → Option GoString
  | [], buf => some buf
  | (k, .file name content) :: rest, buf =>
    match writeFile lib buf k name content with
    | none => none
    | some buf' => writeParts lib rest buf'
  | (k, v) :: rest, buf => writeParts lib rest (lib.writeField lib.boundary buf k (ToString lib v))

/-- `MultiPartEncoder.Encode`.  The deferred `w.Close()` runs after the body has
been set to the buffer, so the body read later ends with the closing line. -/
def MultiPartEncoder.Encode (lib : StdLib)
    (next : EncoderChain → RequestContext → Outcome)
    (context : RequestContext) (chain : EncoderChain) : Outcome :=
  match context.Param with
  | .MultiPart multiPartParams =>
    match writeParts lib multiPartParams [] with
    | none => .ret (some .FileError) context.Request chain
    | some buf =>
      .ret none
        (setDefaultContentType
          { context.Request with Body := some (lib.closeWriter lib.boundary buf) }
          (lib.formDataContentType lib.boundary))
        chain
  | _ => next chain context

/-- `PlainTextEncoder.Encode`. -/
def PlainTextEncoder.Encode
    (next : EncoderChain → RequestContext → Outcome)
    (context : RequestContext) (chain : EncoderChain) : Outcome :=
  match context.Param with
  | .string textParams =>
    .ret none (setDefaultContentType { context.Request with Body := some textParams }
      ContentTypePlainText) chain
  | _ => next chain context

/-- `XmlEncoder.Encode`. -/
def XmlEncoder.Encode (lib : StdLib)
    (next : EncoderChain → RequestContext → Outcome)
    (context : RequestContext) (chain : EncoderChain) : Outcome :=
  match context.Param with
  | .Xml payload =>
    let b : Option GoString :=
      match payload with
      | .string x => some x
      | x => lib.xmlMarshal x
    match b with
    | none => .ret (some .XmlMarshal) context.Request chain
    | some b =>
      .ret none (setDefaultContentType { context.Request with Body := some b } ContentTypeXmlUtf8)
        chain
  | _ => next chain context

/-- `MapperEncoder.Encode`; calling a nil function panics. -/
def MapperEncoder.Encode
    (next : EncoderChain → RequestContext → Outcome)
    (context : RequestContext) (chain : EncoderChain) : Outcome :=
  match context.Param with
  | .Mapper mapperParams =>
    match mapperParams with
    | some mapper => .ret none (mapper context.Request) chain
    | none => .panic chain
  | _ => next chain context

/-- The method `Encode` of an encoder; `next` is the method `Next` of the chain
the encoder is handed, `fuel` bounds the iterations of the path loop. -/
def Encoder.Encode (lib : StdLib) (fuel : Nat)
    (next : EncoderChain → RequestContext → Outcome) :
    Encoder → RequestContext → EncoderChain → Outcome
  | .PathEncoder => PathEncoder.Encode lib fuel next
  | .QueryEncoder => QueryEncoder.Encode lib next
  | .HeaderEncoder => HeaderEncoder.Encode lib next
  | .FormEncoder => FormEncoder.Encode lib next
  | .JsonEncoder => JsonEncoder.Encode lib next
  | .CookieEncoder => CookieEncoder.Encode lib next
  | .BasicAuthEncoder => BasicAuthEncoder.Encode lib next
  | .MultiPartEncoder => MultiPartEncoder.Encode lib next
  | .PlainTextEncoder => PlainTextEncoder.Encode next
  | .XmlEncoder => XmlEncoder.Encode lib next
  | .MapperEncoder => MapperEncoder.Encode next

/-- `EncoderChain.Next` by recursion on a bound `n` of the handlers left:
```
if c.index < len(c.encoders) {
    c.index++
    return c.encoders[c.index-1].Encode(context, c)
}
return EncoderNotFound
```
-/
def EncoderChain.NextAux (lib : StdLib) (fuel : Nat) :
    Nat → EncoderChain → RequestContext → Outcome
  | 0, c, context =>
    if c.index < c.encoders.length then .outOfFuel
    else .ret (some .EncoderNotFound) context.Request c
  | n + 1, c, context =>
    if c.index < c.encoders.length then
      let c' : EncoderChain := { c with index := c.index + 1 }
      match c'.encoders[c'.index - 1]? with
      | some e => e.Encode lib fuel (EncoderChain.NextAux lib fuel n) context c'
      | none => .indexPanic c'
    else .ret (some .EncoderNotFound) context.Request c

/-- `EncoderChain.Next`: the recursion bound is the number of handlers from the
cursor on, which is what the calls can reach. -/
def EncoderChain.Next (lib : StdLib) (fuel : Nat) (c : EncoderChain)
    (context : RequestContext) : Outcome :=
  EncoderChain.NextAux lib fuel (c.encoders.length - c.index) c context

/-- `EncoderChain.Reset`. -/
def EncoderChain.Reset (_c : EncoderChain) : EncoderChain :=
  { encoders := [], index := 0 }

/-- `EncoderChain.Add`. -/
def EncoderChain.Add (c : EncoderChain) (Encoders : List Encoder) : EncoderChain :=
  Encoders.foldl (fun c e => { c with encoders := c.encoders ++ [e] }) c

/-- `EncoderChain.First`; `none` is the nil encoder. -/
def EncoderChain.First (c : EncoderChain) : Option Encoder :=
  if c.encoders.length > 0 then c.encoders[0]? else none

/-- `NewEncoderChain`. -/
def NewEncoderChain (encoders : List Encoder) : EncoderChain :=
  (EncoderChain.Reset { encoders := [], index := 0 }).Add encoders

/-! ## Recognition -/

/-- Whether the type assertion on `context.Param` at the head of an encoder's
`Encode` succeeds for the parameter `v`. -/
def Encoder.recognises : Encoder → Value → Bool
  | .PathEncoder, .Path _ => true
  | .QueryEncoder, .Query _ => true
  | .HeaderEncoder, .Header _ => true
  | .FormEncoder, .Form _ => true
  | .JsonEncoder, .Json _ => true
  | .CookieEncoder, .Cookie _ => true
  | .BasicAuthEncoder, .User _ _ => true
  | .MultiPartEncoder, .MultiPart _ => true
  | .PlainTextEncoder, .string _ => true
  | .XmlEncoder, .Xml _ => true
  | .MapperEncoder, .Mapper _ => true
  | _, _ => false

/-- The outcome `o` with the chain it leaves replaced by `c`. -/
def Outcome.withChain (o : Outcome) (c : EncoderChain) : Outcome :=
  match o with
  | .ret err req _ => .ret err req c
  | .panic _ => .panic c
  | .indexPanic _ => .indexPanic c
  | .outOfFuel => .outOfFuel

/-- The state of the chain when a call ends, by a return or by a panic; `none`
for a call that does not end. -/
def Outcome.chainLeft : Outcome → Option EncoderChain
  | .ret _ _ chain => some chain
  | .panic chain => some chain
  | .indexPanic chain => some chain
  | .outOfFuel => none

/-! ## Concrete inputs -/

/-- A library instance for evaluating the encoders on concrete inputs: floats
and marshalling are not exercised, cookies are `name=value`, multipart parts
are concatenated. -/
def exampleLib : StdLib where
  formatFloat32 := fun _ => []
  formatFloat64 := fun _ => []
  jsonMarshal := fun _ => none
  xmlMarshal := fun _ => none
  cookieString := fun n v => n ++ '=' :: v
  basicAuth := fun u p => u ++ ':' :: p
  boundary := "b".toList
  writeField := fun _ buf k v => buf ++ k ++ v
  createFormFile := fun _ buf k f => some (buf ++ k ++ f)
  closeWriter := fun _ buf => buf
  formDataContentType := fun b => "multipart/form-data; boundary=".toList ++ b

/-- A `GET` request for `path` with no query, headers, body or form. -/
def exampleRequest (path : String) : Request where
  Method := "GET".toList
  Path := path.toList
  RawQuery := []
  Header := []
  Body := none
  PostForm := none
  Form := none

/-- The request context of `req` whose only and current parameter is `param`. -/
def exampleContext (req : Request) (param : Value) : RequestContext where
  Request := req
  Response := none
  Params := [param]
  Param := param
  ParamIndex := 0

/-! ## Path templates -/

/-- A segment of a path template: literal text or a placeholder `:key`. -/
inductive Segment
  | lit (s : GoString)
  | ph (key : GoString)
  deriving DecidableEq, Repr

/-- The text of a segment in a path. -/
def Segment.text : Segment → GoString
  | .lit s => s
  | .ph key => ':' :: key

/-- The segments joined by `/` (`strings.Join(segments, "/")`). -/
def joinPath : List GoString → GoString
  | [] => []
  | [s] => s
  | s :: t :: rest => s ++ '/' :: joinPath (t :: rest)

/-- The path a list of segments stands for. -/
def renderPath (segs : List Segment) : GoString :=
  joinPath (segs.map Segment.text)

/-- The text a segment is to be replaced by: a placeholder `:key` by
`ToString` of the map's value for `key` (nil, hence `""`, for an absent key),
a literal by itself. -/
def Segment.subst (lib : StdLib) (pathParams : List (GoString × Value)) : Segment → GoString
  | .lit s => s
  | .ph key => ToString lib ((mapGet pathParams key).getD Value.nil)

/-- The path with every placeholder segment substituted. -/
def substPath (lib : StdLib) (pathParams : List (GoString × Value)) (segs : List Segment) :
    GoString :=
  joinPath (segs.map (Segment.subst lib pathParams))

/-- A literal contains no `:`; a placeholder key contains neither `:` nor `/`. -/
def Segment.wellFormed : Segment → Prop
  | .lit s => ':' ∉ s
  | .ph key => ':' ∉ key ∧ '/' ∉ key

/-- No placeholder key of the path is a proper prefix of another placeholder
key of the path. -/
def prefixFree (segs : List Segment) : Prop :=
  ∀ k k', Segment.ph k ∈ segs → Segment.ph k' ∈ segs → k <+: k' → k = k'

/-- The segment after the placeholders `:key` have been replaced by `new`. -/
def Segment.replaceKey (key new : GoString) : Segment → Segment
  | .lit s => .lit s
  | .ph k => if k = key then .lit new else .ph k

/-! ## Decimal numerals -/

/-- The scalar types `ToString` has a case for: booleans, the signed and
unsigned integers, the two float types and `string`. -/
def Value.isScalar : Value → Bool
  | .bool _ => true
  | .int _ _ => true
  | .uint _ _ => true
  | .float32 _ => true
  | .float64 _ => true
  | .string _ => true
  | _ => false

/-- The canonical base-10 numeral of a natural number: its digits, most
significant first, no leading zero; `0` is `"0"`. -/
def decimalNat (n : Nat) : GoString :=
  if n = 0 then ['0'] else (Nat.digits 10 n).reverse.map Nat.digitChar

/-- The canonical base-10 numeral of an integer: a leading `-` for negatives. -/
def decimalInt (n : Int) : GoString :=
  if n < 0 then '-' :: decimalNat n.natAbs else decimalNat n.natAbs

/-- Reading decimal digits left to right, `acc` being the number read so far;
`none` at a character that is not a digit. -/
def parseNatAux (acc : Nat) : GoString → Option Nat
  | [] => some acc
  | c :: cs => if c.isDigit then parseNatAux (10 * acc + (c.toNat - '0'.toNat)) cs else none

/-- Parsing a non-empty string of decimal digits. -/
def parseNat (s : GoString) : Option Nat :=
  if s = [] then none else parseNatAux 0 s

/-- Parsing a decimal integer: an optional `-`, then digits. -/
def parseInt : GoString → Option Int
  | '-' :: ds => (parseNat ds).map fun (n : Nat) => -Int.ofNat n
  | ds => (parseNat ds).map fun (n : Nat) => Int.ofNat n

/-- The content type each body encoder passes to the statement that defaults
the `Content-Type` header; `none` for the encoders without that statement
(the multipart encoder's default depends on the writer's boundary). -/
def Encoder.defaultContentType : Encoder → Option GoString
  | .JsonEncoder => some ContentTypeJsonUtf8
  | .PlainTextEncoder => some ContentTypePlainText
  | .XmlEncoder => some ContentTypeXmlUtf8
  | .FormEncoder => some ContentTypeForm
  | _ => none

/-! ## Well-formed JSON -/

/-- JSON whitespace: space, tab, line feed, carriage return. -/
def jsonWs (c : Char) : Bool :=
  c.toNat = 32 || c.toNat = 9 || c.toNat = 10 || c.toNat = 13

/-- A hexadecimal digit. -/
def jsonHex (c : Char) : Bool :=
  c.isDigit || ('a' ≤ c && c ≤ 'f') || ('A' ≤ c && c ≤ 'F')

/-- The rest of the input after a JSON string, read from just behind its
opening quote; `none` if the string is malformed or not closed. -/
def jsonStringTail : Nat → GoString → Option GoString
  | 0, _ => none
  | _ + 1, [] => none
  | fuel + 1, c :: rest =>
    if c.toNat = 34 then some rest
    else if c.toNat = 92 then
      match rest with
      | [] => none
      | e :: rest' =>
        if e = 'u' then
          match rest' with
          | a :: b :: c' :: d :: rest'' =>
            if jsonHex a && jsonHex b && jsonHex c' && jsonHex d then jsonStringTail fuel rest''
            else none
          | _ => none
        else if e.toNat = 34 || e.toNat = 92 || e = '/' || e = 'b' || e = 'f' || e = 'n'
            || e = 'r' || e = 't' then jsonStringTail fuel rest'
        else none
    else if c.toNat < 32 then none
    else jsonStringTail fuel rest

/-- The rest of the input after one or more digits. -/
def jsonDigits : GoString → Option GoString
  | d :: rest => if d.isDigit then some (rest.dropWhile Char.isDigit) else none
  | [] => none

/-- The rest of the input after an optional exponent part. -/
def jsonExponent : GoString → Option GoString
  | e :: rest =>
    if e = 'e' || e = 'E' then
      match rest with
      | s :: rest' => if s = '+' || s = '-' then jsonDigits rest' else jsonDigits rest
      | [] => none
    else some (e :: rest)
  | [] => some []

/-- The rest of the input after an optional fraction and exponent. -/
def jsonFraction : GoString → Option GoString
  | '.' :: rest => (jsonDigits rest).bind jsonExponent
  | s => jsonExponent s

/-- The rest of the input after a JSON number. -/
def jsonNumber (s : GoString) : Option GoString :=
  match (match s with
    | '-' :: t => t
    | t => t) with
  | '0' :: rest => jsonFraction rest
  | rest => (jsonDigits rest).bind jsonFraction

/-- What the JSON reader is reading: a value, the elements of an array after
its first one, or the members of an object. -/
inductive JsonMode
  | value | elements | members
  deriving DecidableEq, Repr

/-- The rest of the input after a JSON value (leading whitespace skipped),
after the tail `, value ... ]` of an array, or after the members
`"key": value, ... }` of an object; `none` if the input is malformed. -/
def jsonRead : Nat → JsonMode → GoString → Option GoString
  | 0, _, _ => none
  | fuel + 1, .value, s =>
    match s.dropWhile jsonWs with
    | [] => none
    | c :: t =>
      if c.toNat = 123 then
        match t.dropWhile jsonWs with
        | [] => none
        | c2 :: t2 => if c2.toNat = 125 then some t2 else jsonRead fuel .members (c2 :: t2)
      else if c = '[' then
        match t.dropWhile jsonWs with
        | [] => none
        | c2 :: t2 =>
          if c2 = ']' then some t2
          else (jsonRead fuel .value (c2 :: t2)).bind (jsonRead fuel .elements)
      else if c.toNat = 34 then jsonStringTail (t.length + 1) t
      else if "true".toList.isPrefixOf (c :: t) then some (t.drop 3)
      else if "false".toList.isPrefixOf (c :: t) then some (t.drop 4)
      else if "null".toList.isPrefixOf (c :: t) then some (t.drop 3)
      else jsonNumber (c :: t)
  | fuel + 1, .elements, s =>
    match s.dropWhile jsonWs with
    | [] => none
    | c :: t =>
      if c = ']' then some t
      else if c = ',' then (jsonRead fuel .value t).bind (jsonRead fuel .elements)
      else none
  | fuel + 1, .members, s =>
    match s.dropWhile jsonWs with
    | [] => none
    | c :: t =>
      if c.toNat = 34 then
        match (jsonStringTail (t.length + 1) t).map (List.dropWhile jsonWs) with
        | some (c2 :: t2) =>
          if c2 = ':' then
            match (jsonRead fuel .value t2).map (List.dropWhile jsonWs) with
            | some (c3 :: t3) =>
              if c3.toNat = 125 then some t3
              else if c3 = ',' then jsonRead fuel .members t3
              else none
            | _ => none
          else none
        | _ => none
      else none

/-- Whether a text is well-formed JSON: one value, whitespace around it allowed
(what `json.Valid` checks). -/
def wellFormedJSON (s : GoString) : Bool :=
  match jsonRead (2 * s.length + 2) .value s with
  | some rest => rest.dropWhile jsonWs = []
  | none => false

/-! ## Verbatim bodies -/

/-- The outcome `o` is a success on the chain `chain` whose request has the body
`s` and the path, query string and `Cookie` header of `req`. -/
def bodySetVerbatim (o : Outcome) (req : Request) (chain : EncoderChain) (s : GoString) :
    Prop :=
  ∃ r : Request, o = .ret none r chain ∧ r.Body = some s ∧ r.Path = req.Path ∧
    r.RawQuery = req.RawQuery ∧
    mapGet r.Header "Cookie".toList = mapGet req.Header "Cookie".toList

/-! ## Reachable chain states -/

/-- The chain states reachable from `NewEncoderChain` by calls of `Add`, `Reset`,
`First` (which assigns nothing) and `Next`; a `Next` call leaves a state behind
when it returns and also when it panics (the caller may recover). -/
inductive EncoderChain.Reachable (lib : StdLib) : EncoderChain → Prop
  | new (encoders : List Encoder) : EncoderChain.Reachable lib (NewEncoderChain encoders)
  | add (c : EncoderChain) (encoders : List Encoder) :
    EncoderChain.Reachable lib c → EncoderChain.Reachable lib (c.Add encoders)
  | reset (c : EncoderChain) : EncoderChain.Reachable lib c → EncoderChain.Reachable lib c.Reset
  | first (c : EncoderChain) (e : Option Encoder) :
    EncoderChain.Reachable lib c → c.First = e → EncoderChain.Reachable lib c
  | next (c : EncoderChain) (fuel : Nat) (context : RequestContext) (c' : EncoderChain) :
    EncoderChain.Reachable lib c → (c.Next lib fuel context).chainLeft = some c' →
    EncoderChain.Reachable lib c'

/-! ## A path that grows for ever -/

/-- The text `x/` repeated `n` times. -/
def repeatX : Nat → GoString
  | 0 => []
  | n + 1 => repeatX n ++ ['x', '/']

/-- The path `/`, then `n` times `x/`, then `:a`: `/:a`, `/x/:a`, `/x/x/:a`, ... -/
def growPath (n : Nat) : GoString :=
  '/' :: repeatX n ++ [':', 'a']

/-- The path map `{a: "x/:a"}`. -/
def growParams : List (GoString × Value) :=
  [("a".toList, .string "x/:a".toList)]

/-! # Theorems -/

/-! ## The handlers' shared contract -/

theorem Encoder.Encode_of_not_recognises (lib : StdLib) (fuel : Nat)
    (next : EncoderChain → RequestContext → Outcome) (e : Encoder)
    (context : RequestContext) (chain : EncoderChain)
    (h : e.recognises context.Param = false) :
    e.Encode lib fuel next context chain = next chain context := by
  cases e <;> cases hp : context.Param <;>
    simp_all [Encoder.recognises, Encoder.Encode, PathEncoder.Encode, QueryEncoder.Encode,
      HeaderEncoder.Encode, FormEncoder.Encode, JsonEncoder.Encode, CookieEncoder.Encode,
      BasicAuthEncoder.Encode, MultiPartEncoder.Encode, PlainTextEncoder.Encode,
      XmlEncoder.Encode, MapperEncoder.Encode]

theorem Encoder.Encode_of_recognises (lib : StdLib) (fuel : Nat)
    (next next' : EncoderChain → RequestContext → Outcome) (e : Encoder)
    (context : RequestContext) (chain : EncoderChain)
    (h : e.recognises context.Param = true) :
    e.Encode lib fuel next context chain = e.Encode lib fuel next' context chain := by
  cases e <;> cases hp : context.Param <;>
    simp_all [Encoder.recognises, Encoder.Encode, PathEncoder.Encode, QueryEncoder.Encode,
      HeaderEncoder.Encode, FormEncoder.Encode, JsonEncoder.Encode, CookieEncoder.Encode,
      BasicAuthEncoder.Encode, MultiPartEncoder.Encode, PlainTextEncoder.Encode,
      XmlEncoder.Encode, MapperEncoder.Encode]

theorem Encoder.Encode_congr (lib : StdLib) (fuel : Nat)
    (next next' : EncoderChain → RequestContext → Outcome) (e : Encoder)
    (context : RequestContext) (chain : EncoderChain)
    (h : next chain context = next' chain context) :
    e.Encode lib fuel next context chain = e.Encode lib fuel next' context chain := by
  cases hr : e.recognises context.Param
  · rw [Encoder.Encode_of_not_recognises _ _ _ _ _ _ hr,
      Encoder.Encode_of_not_recognises _ _ _ _ _ _ hr, h]
  · exact Encoder.Encode_of_recognises _ _ _ _ _ _ _ hr

/-- A handler that recognises the parameter returns the chain it was handed. -/
theorem Encoder.Encode_chain_of_recognises (lib : StdLib) (fuel : Nat)
    (next : EncoderChain → RequestContext → Outcome) (e : Encoder)
    (context : RequestContext) (chain : EncoderChain)
    (h : e.recognises context.Param = true) (err : Option GoError) (req : Request)
    (ch : EncoderChain) (hret : e.Encode lib fuel next context chain = .ret err req ch) :
    ch = chain := by
  cases e <;> cases hp : context.Param <;>
    simp_all [Encoder.recognises, Encoder.Encode, PathEncoder.Encode, QueryEncoder.Encode,
      HeaderEncoder.Encode, FormEncoder.Encode, JsonEncoder.Encode, CookieEncoder.Encode,
      BasicAuthEncoder.Encode, MultiPartEncoder.Encode, PlainTextEncoder.Encode,
      XmlEncoder.Encode, MapperEncoder.Encode]
  all_goals (revert hret; repeat' split) <;> simp_all

/-! ## The chain -/

theorem EncoderChain.Next_of_lt (lib : StdLib) (fuel : Nat) (c : EncoderChain)
    (context : RequestContext) (h : c.index < c.encoders.length) :
    c.Next lib fuel context =
      (c.encoders.get ⟨c.index, h⟩).Encode lib fuel (EncoderChain.Next lib fuel) context
        { c with index := c.index + 1 } := by
  obtain ⟨m, hm⟩ : ∃ m, c.encoders.length - c.index = m + 1 := ⟨c.encoders.length - c.index - 1, by omega⟩
  have hget : c.encoders[c.index]? = some (c.encoders.get ⟨c.index, h⟩) := by
    simp [List.getElem?_eq_getElem h]
  unfold EncoderChain.Next
  rw [hm]
  simp only [EncoderChain.NextAux, h, if_true, Nat.add_sub_cancel, hget]
  apply Encoder.Encode_congr
  have : m = c.encoders.length - (c.index + 1) := by omega
  simp [this, EncoderChain.Next]

theorem EncoderChain.Next_of_ge (lib : StdLib) (fuel : Nat) (c : EncoderChain)
    (context : RequestContext) (h : c.encoders.length ≤ c.index) :
    c.Next lib fuel context = .ret (some .EncoderNotFound) context.Request c := by
  have h0 : c.encoders.length - c.index = 0 := by omega
  have h1 : ¬ c.index < c.encoders.length := by omega
  unfold EncoderChain.Next
  rw [h0]
  simp [EncoderChain.NextAux, h1]

theorem EncoderChain.Next_none_recognises (lib : StdLib) (fuel : Nat) (encoders : List Encoder)
    (context : RequestContext)
    (h : ∀ e ∈ encoders, e.recognises context.Param = false) :
    ∀ d i, i + d = encoders.length →
      EncoderChain.Next lib fuel ⟨encoders, i⟩ context =
        .ret (some .EncoderNotFound) context.Request ⟨encoders, encoders.length⟩ := by
  intro d
  induction d with
  | zero =>
    intro i hi
    rw [EncoderChain.Next_of_ge _ _ _ _ (by simp; omega)]
    simp at hi
    rw [hi]
  | succ d ih =>
    intro i hi
    have hlt : i < encoders.length := by omega
    rw [EncoderChain.Next_of_lt lib fuel ⟨encoders, i⟩ context hlt]
    rw [Encoder.Encode_of_not_recognises]
    · exact ih (i + 1) (by omega)
    · exact h _ (List.get_mem _ _ _)

theorem EncoderChain.Next_first_recognises (lib : StdLib) (fuel : Nat)
    (pre post : List Encoder) (e : Encoder) (context : RequestContext)
    (hpre : ∀ x ∈ pre, x.recognises context.Param = false) :
    ∀ d i, i + d = pre.length →
      EncoderChain.Next lib fuel ⟨pre ++ e :: post, i⟩ context =
        e.Encode lib fuel (EncoderChain.Next lib fuel) context
          ⟨pre ++ e :: post, pre.length + 1⟩ := by
  intro d
  induction d with
  | zero =>
    intro i hi
    simp at hi
    subst hi
    rw [EncoderChain.Next_of_lt lib fuel ⟨pre ++ e :: post, pre.length⟩ context (by simp)]
    have : (pre ++ e :: post).get ⟨pre.length, by simp⟩ = e := by
      simp [List.getElem_append_right]
    simp only [this]
  | succ d ih =>
    intro i hi
    have hlt : i < (pre ++ e :: post).length := by simp; omega
    rw [EncoderChain.Next_of_lt lib fuel ⟨pre ++ e :: post, i⟩ context hlt]
    rw [Encoder.Encode_of_not_recognises]
    · exact ih (i + 1) (by omega)
    · have hi' : i < pre.length := by omega
      have : (pre ++ e :: post).get ⟨i, hlt⟩ = pre.get ⟨i, hi'⟩ := by
        simp [List.getElem_append_left hi']
      simp only [this]
      exact hpre _ (List.get_mem _ _ _)

theorem Encoder.Encode_withChain_of_recognises (lib : StdLib) (fuel : Nat)
    (next next' : EncoderChain → RequestContext → Outcome) (e : Encoder)
    (context : RequestContext) (chain chain' : EncoderChain)
    (h : e.recognises context.Param = true) :
    e.Encode lib fuel next context chain =
      (e.Encode lib fuel next' context chain').withChain chain := by
  cases e <;> cases hp : context.Param <;>
    simp_all [Encoder.recognises, Encoder.Encode, PathEncoder.Encode, QueryEncoder.Encode,
      HeaderEncoder.Encode, FormEncoder.Encode, JsonEncoder.Encode, CookieEncoder.Encode,
      BasicAuthEncoder.Encode, MultiPartEncoder.Encode, PlainTextEncoder.Encode,
      XmlEncoder.Encode, MapperEncoder.Encode]
  all_goals (repeat' split) <;> simp_all [Outcome.withChain]

/-! ## Claims on dispatch -/

/-- C1: on a chain of built-in handlers with cursor 0 (the empty chain
included), if none of the handlers recognises the current parameter then
`Next` returns `EncoderNotFound` and the request is the one it was given. -/
theorem C1_unrecognised_param_not_found (lib : StdLib) (fuel : Nat) (encoders : List Encoder)
    (context : RequestContext)
    (h : ∀ e ∈ encoders, e.recognises context.Param = false) :
    EncoderChain.Next lib fuel ⟨encoders, 0⟩ context =
      .ret (some .EncoderNotFound) context.Request ⟨encoders, encoders.length⟩ :=
  EncoderChain.Next_none_recognises lib fuel encoders context h encoders.length 0 (by simp)

/-- Witness of C1: a struct parameter on a chain of the path, query and JSON
handlers. -/
theorem C1_unrecognised_param_not_found_witness :
    (∀ e ∈ [Encoder.PathEncoder, Encoder.QueryEncoder, Encoder.JsonEncoder],
        e.recognises (exampleContext (exampleRequest "/a/:b") (.other 0)).Param = false) ∧
      EncoderChain.Next exampleLib 0
          ⟨[Encoder.PathEncoder, Encoder.QueryEncoder, Encoder.JsonEncoder], 0⟩
          (exampleContext (exampleRequest "/a/:b") (.other 0)) =
        .ret (some .EncoderNotFound) (exampleRequest "/a/:b")
          ⟨[Encoder.PathEncoder, Encoder.QueryEncoder, Encoder.JsonEncoder], 3⟩ :=
  ⟨by decide, C1_unrecognised_param_not_found exampleLib 0 _ _ (by decide)⟩

/-- C2: on a chain of built-in handlers with cursor 0 whose first handler
recognising the current parameter is `e`, at position `k = pre.length`:
`Next` returns what `e.Encode` returns, whatever continuation `e` is given
(no later handler is invoked); the result and request are those of `e.Encode`
run on any other chain (the handler's mutation alone); and the cursor is left
at `k + 1`. -/
theorem C2_first_recognising_handler (lib : StdLib) (fuel : Nat) (pre post : List Encoder)
    (e : Encoder) (context : RequestContext)
    (hpre : ∀ x ∈ pre, x.recognises context.Param = false)
    (he : e.recognises context.Param = true) :
    (∀ next, EncoderChain.Next lib fuel ⟨pre ++ e :: post, 0⟩ context =
        e.Encode lib fuel next context ⟨pre ++ e :: post, pre.length + 1⟩) ∧
    (∀ next chain, EncoderChain.Next lib fuel ⟨pre ++ e :: post, 0⟩ context =
        (e.Encode lib fuel next context chain).withChain
          ⟨pre ++ e :: post, pre.length + 1⟩) ∧
    (∀ err req ch, EncoderChain.Next lib fuel ⟨pre ++ e :: post, 0⟩ context = .ret err req ch →
        ch = ⟨pre ++ e :: post, pre.length + 1⟩) := by
  have hN := EncoderChain.Next_first_recognises lib fuel pre post e context hpre pre.length 0
    (by simp)
  refine ⟨fun next => ?_, fun next chain => ?_, fun err req ch hret => ?_⟩
  · rw [hN]
    exact Encoder.Encode_of_recognises _ _ _ _ _ _ _ he
  · rw [hN]
    exact Encoder.Encode_withChain_of_recognises _ _ _ _ _ _ _ _ he
  · rw [hN] at hret
    exact Encoder.Encode_chain_of_recognises _ _ _ _ _ _ he _ _ _ hret

/-- Witness of C2: a string parameter on the chain path, raw text, JSON is
taken by the raw-text handler at position 1. -/
theorem C2_first_recognising_handler_witness :
    (∀ x ∈ [Encoder.PathEncoder],
        x.recognises (exampleContext (exampleRequest "/a") (.string "hi".toList)).Param = false) ∧
      Encoder.PlainTextEncoder.recognises
        (exampleContext (exampleRequest "/a") (.string "hi".toList)).Param = true ∧
      EncoderChain.Next exampleLib 0
          ⟨[Encoder.PathEncoder] ++ Encoder.PlainTextEncoder :: [Encoder.JsonEncoder], 0⟩
          (exampleContext (exampleRequest "/a") (.string "hi".toList)) =
        Encoder.PlainTextEncoder.Encode exampleLib 0 (fun c _ => Outcome.panic c)
          (exampleContext (exampleRequest "/a") (.string "hi".toList))
          ⟨[Encoder.PathEncoder] ++ Encoder.PlainTextEncoder :: [Encoder.JsonEncoder], 2⟩ :=
  ⟨by decide, by decide,
    (C2_first_recognising_handler exampleLib 0 [Encoder.PathEncoder] [Encoder.JsonEncoder]
      Encoder.PlainTextEncoder (exampleContext (exampleRequest "/a") (.string "hi".toList))
      (by decide) (by decide)).1 (fun c _ => Outcome.panic c)⟩

/-- C5: when the cursor `i` is below the number of handlers, `Next` is the
call of the handler at position `i` on the chain whose cursor is already
`i + 1`, with `Next` itself as the delegation target, and its result is
returned as it is; when the cursor equals the number of handlers, `Next`
returns `EncoderNotFound` and leaves the cursor and the handlers unchanged. -/
theorem C5_next_step (lib : StdLib) (fuel : Nat) (c : EncoderChain) (context : RequestContext) :
    (∀ h : c.index < c.encoders.length,
      c.Next lib fuel context =
        (c.encoders.get ⟨c.index, h⟩).Encode lib fuel (EncoderChain.Next lib fuel) context
          { encoders := c.encoders, index := c.index + 1 }) ∧
    (c.index = c.encoders.length →
      c.Next lib fuel context = .ret (some .EncoderNotFound) context.Request c) :=
  ⟨fun h => EncoderChain.Next_of_lt lib fuel c context h,
    fun h => EncoderChain.Next_of_ge lib fuel c context (by omega)⟩

/-! ## `strings.Replace` -/

theorem replaceFrom_skip (old new : GoString) (pre s : GoString) :
    replaceFrom old new pre.length (pre ++ s) = replaceFrom old new 0 s := by
  induction pre with
  | nil => rfl
  | cons c cs ih => simpa [replaceFrom] using ih

theorem Replace_nil (old new : GoString) : Replace [] old new = [] := rfl

theorem Replace_match (o : Char) (old new s : GoString) :
    Replace (o :: old ++ s) (o :: old) new = new ++ Replace s (o :: old) new := by
  have h : (o :: old).isPrefixOf (o :: (old ++ s)) = true :=
    List.isPrefixOf_iff_prefix.mpr ⟨s, by simp⟩
  unfold Replace
  rw [List.cons_append, replaceFrom, if_pos h]
  simp only [List.length_cons, Nat.add_sub_cancel]
  rw [replaceFrom_skip]

theorem Replace_no_match (c : Char) (s old new : GoString)
    (h : ¬ old <+: c :: s) :
    Replace (c :: s) old new = c :: Replace s old new := by
  have h' : old.isPrefixOf (c :: s) = false := by
    cases hb : old.isPrefixOf (c :: s)
    · rfl
    · exact absurd (List.isPrefixOf_iff_prefix.mp hb) h
  simp [Replace, replaceFrom, h']

/-- Text without `:` is copied: no occurrence of a placeholder starts in it. -/
theorem Replace_append_of_no_colon (a s k new : GoString) (ha : ':' ∉ a) :
    Replace (a ++ s) (':' :: k) new = a ++ Replace s (':' :: k) new := by
  induction a with
  | nil => rfl
  | cons c cs ih =>
    have hc : c ≠ ':' := fun h => ha (by simp [h])
    have hcs : ':' ∉ cs := fun h => ha (by simp [h])
    rw [List.cons_append, Replace_no_match, ih hcs]
    · rfl
    · intro hp
      have := List.cons_prefix_cons.mp hp
      exact hc this.1.symm

/-! ## Path templates -/

theorem joinPath_cons_cons (s t : GoString) (rest : List GoString) :
    joinPath (s :: t :: rest) = s ++ '/' :: joinPath (t :: rest) := rfl

theorem prefix_of_prefix_append_slash (k k' x : GoString) (hk : '/' ∉ k)
    (h : k <+: k' ++ '/' :: x) : k <+: k' := by
  rcases List.prefix_or_prefix_of_prefix h (List.prefix_append k' ('/' :: x)) with h1 | h1
  · exact h1
  · obtain ⟨t, rfl⟩ := h1
    cases t with
    | nil => simp
    | cons c t =>
      exfalso
      have h2 := (List.prefix_append_right_inj k').mp h
      have h3 := List.cons_prefix_cons.mp h2
      exact hk (by simp [h3.1])

/-- A placeholder that is not `:key` is copied when `:key` is replaced. -/
theorem Replace_other_placeholder (k k' new t : GoString)
    (hk : '/' ∉ k) (hk' : ':' ∉ k') (hne : ¬ k <+: k')
    (ht : t = [] ∨ ∃ x, t = '/' :: x) :
    Replace (':' :: k' ++ t) (':' :: k) new = ':' :: k' ++ Replace t (':' :: k) new := by
  rw [List.cons_append, Replace_no_match, Replace_append_of_no_colon _ _ _ _ hk']
  · rfl
  · intro hp
    have h1 := (List.cons_prefix_cons.mp hp).2
    rcases ht with rfl | ⟨x, rfl⟩
    · exact hne (by simpa using h1)
    · exact hne (prefix_of_prefix_append_slash _ _ _ hk h1)

theorem Replace_slash (t k new : GoString) :
    Replace ('/' :: t) (':' :: k) new = '/' :: Replace t (':' :: k) new :=
  Replace_append_of_no_colon ['/'] t k new (by simp)

/-- Replacing `:key` in a path of well-formed segments replaces exactly the
placeholder segments with that key, when `key` is a prefix of no other key. -/
theorem Replace_renderPath (key new : GoString) (hkey : '/' ∉ key) :
    ∀ segs : List Segment, (∀ s ∈ segs, s.wellFormed) →
      (∀ k', Segment.ph k' ∈ segs → key <+: k' → key = k') →
      Replace (renderPath segs) (':' :: key) new =
        renderPath (segs.map (Segment.replaceKey key new))
  | [], _, _ => rfl
  | [s], hwf, hpf => by
    cases s with
    | lit s =>
      have h : ':' ∉ s := hwf (.lit s) (by simp)
      have := Replace_append_of_no_colon s [] key new h
      simpa [renderPath, joinPath, Segment.text, Segment.replaceKey, Replace_nil] using this
    | ph k =>
      by_cases hk : k = key
      · subst hk
        have := Replace_match ':' k new []
        simpa [renderPath, joinPath, Segment.text, Segment.replaceKey, Replace_nil] using this
      · have hwf' := hwf (.ph k) (by simp)
        have hne : ¬ key <+: k := fun hp => hk (hpf k (by simp) hp).symm
        have := Replace_other_placeholder key k new [] hkey hwf'.1 hne (Or.inl rfl)
        simpa [renderPath, joinPath, Segment.text, Segment.replaceKey, Replace_nil, hk] using this
  | s :: t :: rest, hwf, hpf => by
    have ih := Replace_renderPath key new hkey (t :: rest)
      (fun x hx => hwf x (List.mem_cons_of_mem _ hx))
      (fun k' hk' => hpf k' (List.mem_cons_of_mem _ hk'))
    have hrender : ∀ (x : Segment) (l : List Segment) (y : Segment),
        renderPath (x :: y :: l) = x.text ++ '/' :: renderPath (y :: l) := fun _ _ _ => rfl
    rw [hrender, List.map_cons, List.map_cons, hrender, ← List.map_cons, ← ih]
    cases s with
    | lit s =>
      have h : ':' ∉ s := hwf (.lit s) (by simp)
      rw [Segment.text, Replace_append_of_no_colon _ _ _ _ h, Replace_slash]
      rfl
    | ph k =>
      by_cases hk : k = key
      · subst hk
        have := Replace_match ':' k new ('/' :: renderPath (t :: rest))
        rw [Segment.text, this, Replace_slash]
        simp [Segment.replaceKey, Segment.text]
      · have hwf' := hwf (.ph k) (by simp)
        have hne : ¬ key <+: k := fun hp => hk (hpf k (by simp) hp).symm
        rw [Segment.text, Replace_other_placeholder key k new _ hkey hwf'.1 hne
          (Or.inr ⟨_, rfl⟩), Replace_slash]
        simp [Segment.replaceKey, Segment.text, hk]

/-! ## The scan loop of `PathEncoder` -/

theorem mapGet_mem {α : Type} (m : List (GoString × α)) (k : GoString) (v : α)
    (h : mapGet m k = some v) : ∃ k', (k', v) ∈ m := by
  induction m with
  | nil => simp [mapGet] at h
  | cons kv rest ih =>
    obtain ⟨k', v'⟩ := kv
    simp only [mapGet] at h
    split at h
    · exact ⟨k', by simp_all⟩
    · obtain ⟨k'', hk⟩ := ih h
      exact ⟨k'', List.mem_cons_of_mem _ hk⟩

/-- The values a path map substitutes contain no `:` when no converted value
of the map does. -/
theorem no_colon_lookup (lib : StdLib) (m : List (GoString × Value))
    (hm : ∀ kv ∈ m, ':' ∉ ToString lib kv.2) (k : GoString) :
    ':' ∉ ToString lib ((mapGet m k).getD Value.nil) := by
  cases h : mapGet m k with
  | none => simp [ToString]
  | some v =>
    obtain ⟨k', hk⟩ := mapGet_mem m k v h
    exact hm (k', v) hk

theorem getElem?_append_cons (P : GoString) (c : Char) (X : GoString) :
    (P ++ c :: X)[P.length]? = some c := by
  rw [List.getElem?_append_right (Nat.le_refl _)]
  simp

/-- The inner loop stops at the end of the key. -/
theorem keyEnd_key (rest : GoString) (hrest : rest = [] ∨ ∃ x, rest = '/' :: x) :
    ∀ (k P : GoString) (fuel : Nat), '/' ∉ k → k.length ≤ fuel →
      keyEnd (P ++ k ++ rest) fuel P.length = P.length + k.length := by
  intro k
  induction k with
  | nil =>
    intro P fuel _ _
    cases fuel with
    | zero => simp [keyEnd]
    | succ f =>
      rcases hrest with rfl | ⟨x, rfl⟩
      · simp [keyEnd]
      · have hlt : P.length < (P ++ [] ++ '/' :: x).length := by simp
        have hget : (P ++ [] ++ '/' :: x)[P.length]? = some '/' := by
          simpa using getElem?_append_cons P '/' x
        rw [keyEnd, if_pos hlt, if_pos hget]
        rfl
  | cons c cs ih =>
    intro P fuel hk hfuel
    have hc : c ≠ '/' := fun h => hk (by simp [h])
    have hcs : '/' ∉ cs := fun h => hk (by simp [h])
    cases fuel with
    | zero => simp at hfuel
    | succ f =>
      have hlt : P.length < (P ++ c :: cs ++ rest).length := by simp
      have hget : (P ++ c :: cs ++ rest)[P.length]? = some c := by
        simpa using getElem?_append_cons P c (cs ++ rest)
      rw [keyEnd, if_pos hlt, hget, if_neg (by simpa using hc)]
      have := ih (P ++ [c]) f hcs (by simpa using hfuel)
      simp only [List.append_assoc, List.singleton_append, List.length_append,
        List.length_singleton, List.cons_append, List.nil_append, List.length_cons,
        List.length_nil, Nat.zero_add] at this ⊢
      rw [this]
      omega

theorem pathLoop_of_no_colon (lib : StdLib) (m : List (GoString × Value)) (p : GoString)
    (h : ':' ∉ p) : ∀ fuel i, p.length - i < fuel → pathLoop lib m fuel p i = some p := by
  intro fuel
  induction fuel with
  | zero => intro i hi; omega
  | succ f ih =>
    intro i hi
    by_cases hlt : i < p.length
    · have hne : p[i]? ≠ some ':' := by
        intro he
        exact h (List.getElem?_mem he)
      rw [pathLoop, if_pos hlt, if_neg hne]
      exact ih (i + 1) (by omega)
    · rw [pathLoop, if_neg hlt]

theorem pathLoop_skip (lib : StdLib) (m : List (GoString × Value)) (A B : GoString)
    (hA : ':' ∉ A) : ∀ d i fuel, i + d = A.length →
      pathLoop lib m (fuel + d) (A ++ B) i = pathLoop lib m fuel (A ++ B) A.length := by
  intro d
  induction d with
  | zero => intro i fuel hi; simp at hi; subst hi; rfl
  | succ d ih =>
    intro i fuel hi
    have hlt : i < (A ++ B).length := by simp; omega
    have hiA : i < A.length := by omega
    have hne : (A ++ B)[i]? ≠ some ':' := by
      rw [List.getElem?_append_left hiA]
      intro he
      exact hA (List.getElem?_mem he)
    rw [← Nat.add_assoc, pathLoop, if_pos hlt, if_neg hne]
    exact ih (i + 1) fuel (by omega)

/-- One iteration of the scan at the `:` of a placeholder. -/
theorem pathLoop_placeholder (lib : StdLib) (m : List (GoString × Value))
    (A k rest : GoString) (hk : '/' ∉ k) (hrest : rest = [] ∨ ∃ x, rest = '/' :: x)
    (fuel : Nat) :
    pathLoop lib m (fuel + 1) (A ++ ':' :: k ++ rest) A.length =
      pathLoop lib m fuel
        (Replace (A ++ ':' :: k ++ rest) (':' :: k) (ToString lib ((mapGet m k).getD Value.nil)))
        (A.length + 1) := by
  have hlt : A.length < (A ++ ':' :: k ++ rest).length := by simp
  have hget : (A ++ ':' :: k ++ rest)[A.length]? = some ':' := by
    simpa using getElem?_append_cons A ':' (k ++ rest)
  have hj : keyEnd (A ++ ':' :: k ++ rest) ((A ++ ':' :: k ++ rest).length - (A.length + 1))
      (A.length + 1) = A.length + 1 + k.length := by
    have := keyEnd_key rest hrest k (A ++ [':']) ((A ++ ':' :: k ++ rest).length - (A.length + 1))
      hk (by simp; omega)
    simpa [List.append_assoc] using this
  have hkey : ((A ++ ':' :: k ++ rest).drop (A.length + 1)).take (k.length) = k := by
    have : A ++ ':' :: k ++ rest = (A ++ [':']) ++ (k ++ rest) := by simp
    rw [this, List.drop_append_of_le_length (by simp)]
    simp
  have hold : ((A ++ ':' :: k ++ rest).drop A.length).take (k.length + 1) = ':' :: k := by
    rw [List.append_assoc, List.drop_left]
    simp
  rw [pathLoop, if_pos hlt, if_pos hget]
  simp only [hj]
  have e1 : A.length + 1 + k.length - (A.length + 1) = k.length := by omega
  have e2 : A.length + 1 + k.length - A.length = k.length + 1 := by omega
  rw [e1, e2, hkey, hold]

theorem Segment.subst_replaceKey (lib : StdLib) (m : List (GoString × Value)) (key : GoString)
    (s : Segment) :
    (s.replaceKey key (ToString lib ((mapGet m key).getD Value.nil))).subst lib m =
      s.subst lib m := by
  cases s with
  | lit s => rfl
  | ph k =>
    by_cases hk : k = key
    · simp [Segment.replaceKey, Segment.subst, hk]
    · simp [Segment.replaceKey, Segment.subst, hk]

theorem Segment.wellFormed_replaceKey (key new : GoString) (hnew : ':' ∉ new) (s : Segment)
    (hs : s.wellFormed) : (s.replaceKey key new).wellFormed := by
  cases s with
  | lit s => exact hs
  | ph k =>
    by_cases hk : k = key
    · simpa [Segment.replaceKey, hk, Segment.wellFormed] using hnew
    · simpa [Segment.replaceKey, hk] using hs

theorem Segment.ph_mem_map_replaceKey (key new k : GoString) (segs : List Segment)
    (h : Segment.ph k ∈ segs.map (Segment.replaceKey key new)) : Segment.ph k ∈ segs := by
  obtain ⟨s, hs, he⟩ := List.mem_map.mp h
  cases s with
  | lit s => simp [Segment.replaceKey] at he
  | ph k' =>
    by_cases hk : k' = key
    · simp [Segment.replaceKey, hk] at he
    · simp [Segment.replaceKey, hk] at he
      subst he
      exact hs

/-- Enough fuel at the end of the scanned prefix is enough before it. -/
theorem pathLoop_from_prefix (lib : StdLib) (m : List (GoString × Value)) (A B R : GoString)
    (hA : ':' ∉ A) (i : Nat) (hi : i ≤ A.length)
    (h : ∃ N, ∀ fuel, N ≤ fuel → pathLoop lib m fuel (A ++ B) A.length = some R) :
    ∃ N, ∀ fuel, N ≤ fuel → pathLoop lib m fuel (A ++ B) i = some R := by
  obtain ⟨N, hN⟩ := h
  refine ⟨N + (A.length - i), fun fuel hfuel => ?_⟩
  have e : fuel = (fuel - (A.length - i)) + (A.length - i) := by omega
  rw [e, pathLoop_skip lib m A B hA (A.length - i) i _ (by omega)]
  exact hN _ (by omega)

/-- The scan over a path of well-formed segments, started anywhere in a prefix
`A` without `:`, ends with every placeholder substituted. -/
theorem pathLoop_segments (lib : StdLib) (m : List (GoString × Value))
    (hm : ∀ kv ∈ m, ':' ∉ ToString lib kv.2) :
    ∀ (n : Nat) (segs : List Segment), segs.length = n →
      (∀ s ∈ segs, s.wellFormed) → prefixFree segs →
      ∀ (A : GoString) (i : Nat), ':' ∉ A → i ≤ A.length →
        ∃ N, ∀ fuel, N ≤ fuel →
          pathLoop lib m fuel (A ++ renderPath segs) i = some (A ++ substPath lib m segs) := by
  intro n
  induction n with
  | zero =>
    intro segs hlen _ _ A i hA _
    have : segs = [] := List.length_eq_zero.mp hlen
    subst this
    refine ⟨A.length + 1, fun fuel hfuel => ?_⟩
    simp only [renderPath, substPath, List.map_nil, joinPath, List.append_nil]
    exact pathLoop_of_no_colon lib m A hA fuel i (by omega)
  | succ n ih =>
    intro segs hlen hwf hpf A i hA hi
    apply pathLoop_from_prefix lib m A _ _ hA i hi
    match segs, hlen, hwf, hpf with
    | [.lit s], _, hwf, _ =>
      have hs : ':' ∉ s := hwf (.lit s) (by simp)
      refine ⟨A.length + s.length + 1, fun fuel hfuel => ?_⟩
      simp only [renderPath, substPath, List.map_cons, List.map_nil, joinPath, Segment.text,
        Segment.subst]
      exact pathLoop_of_no_colon lib m (A ++ s) (by simp [hA, hs]) fuel _ (by simp; omega)
    | .lit s :: y :: rest, hlen, hwf, hpf =>
      have hs : ':' ∉ s := hwf (.lit s) (by simp)
      obtain ⟨N, hN⟩ := ih (y :: rest) (by simpa using hlen)
        (fun x hx => hwf x (List.mem_cons_of_mem _ hx))
        (fun k k' hk hk' => hpf k k' (List.mem_cons_of_mem _ hk) (List.mem_cons_of_mem _ hk'))
        (A ++ s ++ ['/']) A.length (by simp [hA, hs]) (by simp)
      refine ⟨N, fun fuel hfuel => ?_⟩
      have := hN fuel hfuel
      simpa [renderPath, substPath, joinPath, Segment.text, Segment.subst] using this
    | [.ph k], _, hwf, _ =>
      have hk := hwf (.ph k) (by simp)
      have hv := no_colon_lookup lib m hm k
      refine ⟨A.length + (ToString lib ((mapGet m k).getD Value.nil)).length + 2,
        fun fuel hfuel => ?_⟩
      obtain ⟨f, rfl⟩ : ∃ f, fuel = f + 1 := ⟨fuel - 1, by omega⟩
      have hstep := pathLoop_placeholder lib m A k [] hk.2 (Or.inl rfl) f
      have hrep : Replace (A ++ ':' :: k ++ []) (':' :: k)
          (ToString lib ((mapGet m k).getD Value.nil)) =
          A ++ ToString lib ((mapGet m k).getD Value.nil) := by
        rw [List.append_assoc, Replace_append_of_no_colon _ _ _ _ hA]
        have := Replace_match ':' k (ToString lib ((mapGet m k).getD Value.nil)) []
        rw [this, Replace_nil, List.append_nil]
      rw [hrep] at hstep
      simp only [renderPath, substPath, List.map_cons, List.map_nil, joinPath, Segment.text,
        Segment.subst]
      simp only [List.append_nil] at hstep
      rw [hstep]
      exact pathLoop_of_no_colon lib m _ (by simp [hA, hv]) f _ (by simp; omega)
    | .ph k :: y :: rest, hlen, hwf, hpf =>
      have hk := hwf (.ph k) (by simp)
      have hv := no_colon_lookup lib m hm k
      have hwf' : ∀ x ∈ y :: rest, x.wellFormed := fun x hx => hwf x (List.mem_cons_of_mem _ hx)
      have hpfk : ∀ k', Segment.ph k' ∈ y :: rest → k <+: k' → k = k' :=
        fun k' hk' hp => hpf k k' (by simp) (List.mem_cons_of_mem _ hk') hp
      obtain ⟨N, hN⟩ := ih
        ((y :: rest).map (Segment.replaceKey k (ToString lib ((mapGet m k).getD Value.nil))))
        (by simpa using hlen)
        (fun x hx => by
          obtain ⟨x', hx', rfl⟩ := List.mem_map.mp hx
          exact Segment.wellFormed_replaceKey _ _ hv _ (hwf' x' hx'))
        (fun a b ha hb => hpf a b
          (List.mem_cons_of_mem _ (Segment.ph_mem_map_replaceKey _ _ _ _ ha))
          (List.mem_cons_of_mem _ (Segment.ph_mem_map_replaceKey _ _ _ _ hb)))
        (A ++ ToString lib ((mapGet m k).getD Value.nil) ++ ['/']) (A.length + 1)
        (by simp [hA, hv]) (by simp)
      refine ⟨N + 1, fun fuel hfuel => ?_⟩
      obtain ⟨f, rfl⟩ : ∃ f, fuel = f + 1 := ⟨fuel - 1, by omega⟩
      have hstep := pathLoop_placeholder lib m A k ('/' :: renderPath (y :: rest)) hk.2
        (Or.inr ⟨_, rfl⟩) f
      have hrep : Replace (A ++ ':' :: k ++ '/' :: renderPath (y :: rest)) (':' :: k)
          (ToString lib ((mapGet m k).getD Value.nil)) =
          A ++ ToString lib ((mapGet m k).getD Value.nil) ++ ['/'] ++
            renderPath ((y :: rest).map
              (Segment.replaceKey k (ToString lib ((mapGet m k).getD Value.nil)))) := by
        rw [List.append_assoc, Replace_append_of_no_colon _ _ _ _ hA]
        have := Replace_match ':' k (ToString lib ((mapGet m k).getD Value.nil))
          ('/' :: renderPath (y :: rest))
        rw [this, Replace_slash, Replace_renderPath k _ hk.2 (y :: rest) hwf' hpfk]
        simp
      rw [hrep] at hstep
      have hsub : substPath lib m ((y :: rest).map
          (Segment.replaceKey k (ToString lib ((mapGet m k).getD Value.nil)))) =
          substPath lib m (y :: rest) := by
        simp only [substPath, List.map_map]
        congr 1
        apply List.map_congr_left
        intro x _
        exact Segment.subst_replaceKey lib m k x
      have hfin := hN f (by omega)
      rw [hsub] at hfin
      have e1 : A ++ renderPath (.ph k :: y :: rest) =
          A ++ ':' :: k ++ '/' :: renderPath (y :: rest) := by
        simp [renderPath, joinPath, Segment.text]
      have e2 : A ++ substPath lib m (.ph k :: y :: rest) =
          A ++ ToString lib ((mapGet m k).getD Value.nil) ++ ['/'] ++
            substPath lib m (y :: rest) := by
        simp [substPath, joinPath, Segment.subst]
      rw [e1, e2, hstep]
      exact hfin

theorem joinPath_eq_intercalate (l : List GoString) : joinPath l = List.intercalate ['/'] l := by
  induction l with
  | nil => rfl
  | cons s rest ih =>
    cases rest with
    | nil => simp [joinPath, List.intercalate]
    | cons t rest =>
      rw [joinPath, ih]
      simp [List.intercalate, List.intersperse]

/-! ## Claims on `PathEncoder` -/

/-- C3 (the code at the claim's input): for the path `/users/:id/:id2` and the
path map `{id: 42, id2: "x"}` the encoder returns success with the path
`/users/42/422`, which is not the `/users/42/x` of the claim: replacing every
occurrence of `:id` also rewrites the head of `:id2`. -/
theorem C3_path_example_actual :
    PathEncoder.Encode exampleLib 20 (fun c _ => Outcome.panic c)
        (exampleContext (exampleRequest "/users/:id/:id2")
          (.Path [("id".toList, .int .platform 42), ("id2".toList, .string "x".toList)]))
        ⟨[Encoder.PathEncoder], 1⟩ =
      .ret none (exampleRequest "/users/42/422") ⟨[Encoder.PathEncoder], 1⟩ ∧
    exampleRequest "/users/42/422" ≠ exampleRequest "/users/42/x" := by
  constructor
  · rfl
  · decide

/-- C4: for a path of `/`-separated segments, each a literal without `:` or a
placeholder `:key` whose key has neither `:` nor `/`, and a path map whose
converted values have no `:`, if no placeholder key of the path is a proper
prefix of another, then with enough fuel `PathEncoder` returns success and the
path is the original one with every placeholder segment (repeated keys
included) replaced by `ToString` of the map's value for its key, whatever the
lengths of the values; a key absent from the map is replaced by `""`. -/
theorem C4_path_substitution (lib : StdLib) (pathParams : List (GoString × Value))
    (segs : List Segment) (next : EncoderChain → RequestContext → Outcome)
    (context : RequestContext) (chain : EncoderChain)
    (hparam : context.Param = .Path pathParams)
    (hpath : context.Request.Path = renderPath segs)
    (hwf : ∀ s ∈ segs, s.wellFormed)
    (hvalues : ∀ kv ∈ pathParams, ':' ∉ ToString lib kv.2)
    (hfree : prefixFree segs) :
    (∃ N, ∀ fuel, N ≤ fuel →
      PathEncoder.Encode lib fuel next context chain =
        .ret none { context.Request with Path := substPath lib pathParams segs } chain) ∧
    (∀ key, mapGet pathParams key = none → (Segment.ph key).subst lib pathParams = []) := by
  constructor
  · obtain ⟨N, hN⟩ := pathLoop_segments lib pathParams hvalues segs.length segs rfl hwf hfree
      [] 0 (by simp) (by simp)
    refine ⟨N, fun fuel hfuel => ?_⟩
    have := hN fuel hfuel
    simp only [List.nil_append] at this
    simp [PathEncoder.Encode, hparam, hpath, this]
  · intro key hkey
    simp [Segment.subst, hkey, ToString]

/-- Witness of C4: `/users/:id/:name/:id` with `{id: 42, name: "a/b"}`. -/
theorem C4_path_substitution_witness :
    ∃ N, ∀ fuel, N ≤ fuel →
      PathEncoder.Encode exampleLib fuel (fun c _ => Outcome.panic c)
          (exampleContext (exampleRequest "/users/:id/:name/:id")
            (.Path [("id".toList, .int .platform 42), ("name".toList, .string "a/b".toList)]))
          ⟨[Encoder.PathEncoder], 1⟩ =
        .ret none (exampleRequest "/users/42/a/b/42") ⟨[Encoder.PathEncoder], 1⟩ :=
  (C4_path_substitution exampleLib
    [("id".toList, .int .platform 42), ("name".toList, .string "a/b".toList)]
    [.lit [], .lit "users".toList, .ph "id".toList, .ph "name".toList, .ph "id".toList]
    (fun c _ => Outcome.panic c)
    (exampleContext (exampleRequest "/users/:id/:name/:id")
      (.Path [("id".toList, .int .platform 42), ("name".toList, .string "a/b".toList)]))
    ⟨[Encoder.PathEncoder], 1⟩ rfl rfl
    (by simp [Segment.wellFormed])
    (by simp [ToString, FormatInt, FormatUint, formatBits, toInt64]; decide)
    (by
      intro k k' hk hk' hp
      simp at hk hk'
      rcases hk with rfl | rfl | rfl <;> rcases hk' with rfl | rfl | rfl <;> first | rfl | (exfalso; revert hp; decide))).1

/-! ## The scalar converter -/

theorem digitChar_isDigit (d : Nat) (h : d < 10) :
    (Nat.digitChar d).isDigit = true ∧ (Nat.digitChar d).toNat - '0'.toNat = d ∧
      (d ≠ 0 → Nat.digitChar d ≠ '0') ∧ Nat.digitChar d ≠ '-' := by
  interval_cases d <;> decide

/-- With the fuel `FormatUint` supplies, the digit loop writes the canonical
numeral in front of the accumulator. -/
theorem formatBits_eq (fuel : Nat) : ∀ (u : Nat) (acc : GoString), u ≤ fuel →
    formatBits fuel u acc = decimalNat u ++ acc := by
  induction fuel with
  | zero =>
    intro u acc hu
    have : u = 0 := by omega
    subst this
    rfl
  | succ f ih =>
    intro u acc hu
    by_cases h10 : u ≥ 10
    · rw [formatBits, if_pos h10, ih (u / 10) _ (by omega)]
      have hne : u / 10 ≠ 0 := by omega
      have hu0 : u ≠ 0 := by omega
      simp only [decimalNat, if_neg hne, if_neg hu0]
      have hd := @Nat.digits_def' 10 (by norm_num) u (by omega)
      rw [hd]
      simp
    · rw [formatBits, if_neg h10]
      by_cases h0 : u = 0
      · subst h0; rfl
      · simp only [decimalNat, if_neg h0]
        rw [Nat.digits_of_lt 10 u h0 (by omega)]
        rfl

theorem FormatUint_eq (u : Nat) : FormatUint u = decimalNat u := by
  simp [FormatUint, formatBits_eq u u [] (Nat.le_refl u)]

theorem FormatInt_eq (i : Int) : FormatInt i = decimalInt i := by
  unfold FormatInt decimalInt
  by_cases h : i < 0
  · simp only [if_pos h, FormatUint_eq]
    congr 2
    omega
  · simp only [if_neg h, FormatUint_eq]
    congr 1
    omega

theorem toUint64_of_inRange (w : IntWidth) (n : Nat) (h : (Value.uint w n).inRange) :
    toUint64 n = n := by
  have hb : n < 2 ^ 64 := by
    cases w <;> simp [Value.inRange, IntWidth.bits] at h <;> omega
  exact Nat.mod_eq_of_lt hb

theorem toInt64_of_inRange (w : IntWidth) (n : Int) (h : (Value.int w n).inRange) :
    toInt64 n = n := by
  have hb : -(2 ^ 63 : Int) ≤ n ∧ n < 2 ^ 63 := by
    cases w <;> simp [Value.inRange, IntWidth.bits] at h <;> constructor <;> omega
  unfold toInt64
  omega

theorem parseNatAux_append (s t : GoString) : ∀ acc,
    parseNatAux acc (s ++ t) = (parseNatAux acc s).bind fun a => parseNatAux a t := by
  induction s with
  | nil => intro acc; rfl
  | cons c cs ih =>
    intro acc
    simp only [List.cons_append, parseNatAux]
    split
    · exact ih _
    · rfl

theorem parseNatAux_digits (ds : List Nat) (h : ∀ d ∈ ds, d < 10) :
    parseNatAux 0 (ds.reverse.map Nat.digitChar) = some (Nat.ofDigits 10 ds) := by
  induction ds with
  | nil => rfl
  | cons d ds ih =>
    have hd := digitChar_isDigit d (h d (by simp))
    rw [List.reverse_cons, List.map_append, parseNatAux_append,
      ih (fun x hx => h x (List.mem_cons_of_mem _ hx))]
    simp only [List.map_cons, List.map_nil, Option.some_bind, parseNatAux, hd.1, if_true,
      hd.2.1, Nat.ofDigits_cons]
    congr 1
    omega

theorem parseNat_decimalNat (n : Nat) : parseNat (decimalNat n) = some n := by
  unfold decimalNat
  by_cases h0 : n = 0
  · subst h0; rfl
  · have hne : (Nat.digits 10 n).reverse.map Nat.digitChar ≠ [] := by
      simp [Nat.digits_ne_nil_iff_ne_zero, h0]
    rw [if_neg h0, parseNat, if_neg hne,
      parseNatAux_digits _ (fun d hd => Nat.digits_lt_base (by norm_num) hd),
      Nat.ofDigits_digits]

/-- The canonical numeral is a non-empty string of digits that starts with `0`
only for the number 0. -/
theorem decimalNat_canonical (n : Nat) :
    decimalNat n ≠ [] ∧ (∀ c ∈ decimalNat n, c.isDigit = true) ∧
      (n ≠ 0 → (decimalNat n).head? ≠ some '0') := by
  unfold decimalNat
  by_cases h0 : n = 0
  · subst h0; simp
  · rw [if_neg h0]
    have hlt : ∀ d ∈ Nat.digits 10 n, d < 10 := fun d hd => Nat.digits_lt_base (by norm_num) hd
    refine ⟨by simp [Nat.digits_ne_nil_iff_ne_zero, h0], ?_, fun _ => ?_⟩
    · intro c hc
      obtain ⟨d, hd, rfl⟩ := List.mem_map.mp hc
      exact (digitChar_isDigit d (hlt d (List.mem_reverse.mp hd))).1
    · have hnil : Nat.digits 10 n ≠ [] := by simp [Nat.digits_ne_nil_iff_ne_zero, h0]
      have hlast := Nat.getLast_digit_ne_zero 10 h0
      rw [List.head?_map, List.head?_reverse, List.getLast?_eq_getLast _ hnil]
      simp only [Option.map_some', ne_eq, Option.some.injEq]
      exact (digitChar_isDigit _ (hlt _ (List.getLast_mem hnil))).2.2.1 hlast

theorem parseInt_decimalInt (n : Int) : parseInt (decimalInt n) = some n := by
  unfold decimalInt
  by_cases h : n < 0
  · rw [if_pos h]
    simp only [parseInt, parseNat_decimalNat, Option.map_some']
    congr 1
    have := Int.ofNat_natAbs_of_nonpos (Int.le_of_lt h)
    simp only [Int.ofNat_eq_coe, this, Int.neg_neg]
  · rw [if_neg h]
    have hc := decimalNat_canonical n.natAbs
    have hhead : ∀ ds, decimalNat n.natAbs ≠ '-' :: ds := by
      intro ds he
      have := hc.2.1 '-' (by rw [he]; simp)
      revert this
      decide
    have : parseInt (decimalNat n.natAbs) = (parseNat (decimalNat n.natAbs)).map
        fun (k : Nat) => Int.ofNat k := by
      unfold parseInt
      split
      · rename_i ds he
        exact absurd he (hhead ds)
      · rfl
    rw [this, parseNat_decimalNat]
    have hn : (n.natAbs : Int) = n := Int.natAbs_of_nonneg (by omega)
    simp [hn]

/-- C6: `ToString` of a boolean is `"true"` or `"false"`; of a signed integer
of any width it is the canonical base-10 numeral (a leading `-` for negatives,
digits without leading zero), which parses back to the integer; of an unsigned
integer likewise without sign; of a string it is the string; `-7` gives
`"-7"`. -/
theorem C6_scalar_to_string (lib : StdLib) :
    (∀ b, ToString lib (.bool b) = if b then "true".toList else "false".toList) ∧
    (∀ w n, (Value.int w n).inRange →
      ToString lib (.int w n) = decimalInt n ∧ parseInt (ToString lib (.int w n)) = some n) ∧
    (∀ w n, (Value.uint w n).inRange →
      ToString lib (.uint w n) = decimalNat n ∧
        parseInt (ToString lib (.uint w n)) = some (Int.ofNat n)) ∧
    (∀ n : Nat, decimalNat n ≠ [] ∧ (∀ c ∈ decimalNat n, c.isDigit = true) ∧
      (n ≠ 0 → (decimalNat n).head? ≠ some '0')) ∧
    (∀ s, ToString lib (.string s) = s) ∧
    ToString lib (.int .platform (-7)) = "-7".toList := by
  refine ⟨fun b => rfl, fun w n h => ?_, fun w n h => ?_, decimalNat_canonical, fun s => rfl, rfl⟩
  · have e : ToString lib (.int w n) = decimalInt n := by
      simp only [ToString, toInt64_of_inRange w n h, FormatInt_eq]
    exact ⟨e, by rw [e, parseInt_decimalInt]⟩
  · have e : ToString lib (.uint w n) = decimalNat n := by
      simp only [ToString, toUint64_of_inRange w n h, FormatUint_eq]
    refine ⟨e, ?_⟩
    have := parseInt_decimalInt (Int.ofNat n)
    simpa [decimalInt, e] using this

/-- Witness of C6: the smallest `int8` and the largest `uint16`. -/
theorem C6_scalar_to_string_witness :
    (ToString exampleLib (.int .w8 (-128)) = decimalInt (-128) ∧
      parseInt (ToString exampleLib (.int .w8 (-128))) = some (-128)) ∧
    (ToString exampleLib (.uint .w16 65535) = decimalNat 65535 ∧
      parseInt (ToString exampleLib (.uint .w16 65535)) = some (Int.ofNat 65535)) :=
  ⟨(C6_scalar_to_string exampleLib).2.1 .w8 (-128) (by simp [Value.inRange, IntWidth.bits]),
    (C6_scalar_to_string exampleLib).2.2.1 .w16 65535 (by simp [Value.inRange, IntWidth.bits])⟩

/-- C7: for every value whose type is none of boolean, signed or unsigned
integer, float and string, `ToString` is the empty string; `ToString` is a
total function to strings, so no error is signalled. -/
theorem C7_non_scalar_empty (lib : StdLib) (v : Value) (h : v.isScalar = false) :
    ToString lib v = [] := by
  cases v <;> simp_all [Value.isScalar, ToString]

/-- Witness of C7: nil, a `List`, a `Map` and a struct. -/
theorem C7_non_scalar_empty_witness :
    ToString exampleLib .nil = [] ∧
    ToString exampleLib (.list [.int .platform 1, .string "a".toList]) = [] ∧
    ToString exampleLib (.map [("k".toList, .bool true)]) = [] ∧
    ToString exampleLib (.other 0) = [] :=
  ⟨C7_non_scalar_empty exampleLib _ rfl, C7_non_scalar_empty exampleLib _ rfl,
    C7_non_scalar_empty exampleLib _ rfl, C7_non_scalar_empty exampleLib _ rfl⟩

/-! ## Headers and bodies -/

theorem mapGet_mapSet_self {α : Type} (m : List (GoString × α)) (k : GoString) (v : α) :
    mapGet (mapSet m k v) k = some v := by
  induction m with
  | nil => simp [mapSet, mapGet]
  | cons kv rest ih =>
    obtain ⟨k', v'⟩ := kv
    by_cases h : k' = k
    · simp [mapSet, mapGet, h]
    · simp [mapSet, mapGet, h, ih]

theorem mapGet_mapSet_ne {α : Type} (m : List (GoString × α)) (k k' : GoString) (v : α)
    (hne : k' ≠ k) : mapGet (mapSet m k v) k' = mapGet m k' := by
  induction m with
  | nil => simp [mapSet, mapGet, Ne.symm hne]
  | cons kv rest ih =>
    obtain ⟨k'', v''⟩ := kv
    by_cases h : k'' = k
    · subst h
      simp [mapSet, mapGet, Ne.symm hne]
    · by_cases h' : k'' = k'
      · subst h'
        simp [mapSet, mapGet, h]
      · simp [mapSet, mapGet, h, h', ih]

theorem CanonicalMIMEHeaderKey_ContentType :
    CanonicalMIMEHeaderKey ContentType = ContentType := by decide

/-- The statement defaulting `Content-Type`: an existing entry is kept, a
missing one is set, and no other header changes. -/
theorem setDefaultContentType_header (req : Request) (value : GoString) :
    (∀ vs, mapGet req.Header ContentType = some vs →
      (setDefaultContentType req value).Header = req.Header) ∧
    (mapGet req.Header ContentType = none →
      mapGet (setDefaultContentType req value).Header ContentType = some [value]) ∧
    (∀ k, k ≠ ContentType →
      mapGet (setDefaultContentType req value).Header k = mapGet req.Header k) := by
  unfold setDefaultContentType
  refine ⟨fun vs h => by simp [h], fun h => ?_, fun k hk => ?_⟩
  · simp only [h, HeaderSet, CanonicalMIMEHeaderKey_ContentType]
    exact mapGet_mapSet_self _ _ _
  · cases h : mapGet req.Header ContentType with
    | some vs => rfl
    | none =>
      simp only [HeaderSet, CanonicalMIMEHeaderKey_ContentType]
      exact mapGet_mapSet_ne _ _ _ _ hk

theorem Request.ParseFormWith_header (req : Request) (form : Values) :
    (req.ParseFormWith form).1.Header = req.Header := by
  unfold Request.ParseFormWith
  cases req.Form <;> simp
  split <;> rfl

theorem Request.ParseFormWith_body (req : Request) (form : Values) :
    (req.ParseFormWith form).1.Body = req.Body := by
  unfold Request.ParseFormWith
  cases req.Form <;> simp
  split <;> rfl

/-- A body encoder that returns success has run the defaulting statement on a
request whose headers are those it was given. -/
theorem Encoder.Encode_success_default (lib : StdLib) (fuel : Nat)
    (next : EncoderChain → RequestContext → Outcome) (e : Encoder) (d : GoString)
    (context : RequestContext) (chain : EncoderChain) (req' : Request) (ch : EncoderChain)
    (hd : e.defaultContentType = some d)
    (hrec : e.recognises context.Param = true)
    (hret : e.Encode lib fuel next context chain = .ret none req' ch) :
    ∃ r0 : Request, r0.Header = context.Request.Header ∧ req' = setDefaultContentType r0 d := by
  cases e <;> simp [Encoder.defaultContentType] at hd <;> subst hd <;>
    cases hp : context.Param <;> simp [Encoder.recognises, hp] at hrec
  · -- FormEncoder
    simp only [Encoder.Encode, FormEncoder.Encode, hp] at hret
    split at hret
    · simp at hret
    · rename_i form _
      split at hret
      · simp at hret
      · simp only [Outcome.ret.injEq, true_and] at hret
        exact ⟨_, Request.ParseFormWith_header _ _, hret.1.symm⟩
  · -- JsonEncoder
    simp only [Encoder.Encode, JsonEncoder.Encode, hp] at hret
    split at hret
    · simp at hret
    · simp only [Outcome.ret.injEq, true_and] at hret
      exact ⟨_, by rfl, hret.1.symm⟩
  · -- PlainTextEncoder
    simp only [Encoder.Encode, PlainTextEncoder.Encode, hp, Outcome.ret.injEq, true_and] at hret
    exact ⟨_, by rfl, hret.1.symm⟩
  · -- XmlEncoder
    simp only [Encoder.Encode, XmlEncoder.Encode, hp] at hret
    split at hret
    · simp at hret
    · simp only [Outcome.ret.injEq, true_and] at hret
      exact ⟨_, by rfl, hret.1.symm⟩

/-- The form encoder never assigns `req.Body`: whenever it returns, the body is
the one the request had. -/
theorem FormEncoder.Encode_body (lib : StdLib)
    (next : EncoderChain → RequestContext → Outcome) (context : RequestContext)
    (chain : EncoderChain) (formParams : List (GoString × Value))
    (hp : context.Param = .Form formParams) (err : Option GoError) (req' : Request)
    (ch : EncoderChain)
    (hret : FormEncoder.Encode lib next context chain = .ret err req' ch) :
    req'.Body = context.Request.Body := by
  simp only [FormEncoder.Encode, hp] at hret
  split at hret
  · simp at hret
  · split at hret
    · simp only [Outcome.ret.injEq] at hret
      rw [← hret.2.1, Request.ParseFormWith_body]
    · simp only [Outcome.ret.injEq] at hret
      rw [← hret.2.1]
      unfold setDefaultContentType
      split
      · exact Request.ParseFormWith_body _ _
      · exact Request.ParseFormWith_body _ _

/-! ## Claims on the query, form and body encoders -/

/-- C8 (the code at failing inputs): a query map whose value is a `[]int`
makes `QueryEncoder` panic (`Elem` on an element that is neither interface nor
pointer), and so does a nil value (`reflect.TypeOf(nil).Kind()`); the claim's
`tags=1&tags=2&tags=3` is what the code gives for the `List` `[1, 2, 3]`. -/
theorem C8_query_sequence_panics :
    QueryEncoder.Encode exampleLib (fun _ _ => Outcome.ret none (exampleRequest "") ⟨[], 0⟩)
        (exampleContext (exampleRequest "/a")
          (.Query [("tags".toList,
            .slice [.int .platform 1, .int .platform 2, .int .platform 3])]))
        ⟨[Encoder.QueryEncoder], 1⟩ = .panic ⟨[Encoder.QueryEncoder], 1⟩ ∧
    QueryEncoder.Encode exampleLib (fun _ _ => Outcome.ret none (exampleRequest "") ⟨[], 0⟩)
        (exampleContext (exampleRequest "/a") (.Query [("a".toList, .nil)]))
        ⟨[Encoder.QueryEncoder], 1⟩ = .panic ⟨[Encoder.QueryEncoder], 1⟩ ∧
    QueryEncoder.Encode exampleLib (fun _ _ => Outcome.ret none (exampleRequest "") ⟨[], 0⟩)
        (exampleContext (exampleRequest "/a")
          (.Query [("tags".toList,
            .list [.int .platform 1, .int .platform 2, .int .platform 3])]))
        ⟨[Encoder.QueryEncoder], 1⟩ =
      .ret none { exampleRequest "/a" with RawQuery := "tags=1&tags=2&tags=3".toList }
        ⟨[Encoder.QueryEncoder], 1⟩ :=
  ⟨rfl, rfl, rfl⟩

/-- C9: when the JSON, raw-text, XML or form encoder recognises the parameter
and returns success, a `Content-Type` entry the request already had is left as
it was (the header map is unchanged), a missing one is set to the encoder's
default, and every other header is unchanged; the defaults are the four
strings of the claim. -/
theorem C9_content_type_default (lib : StdLib) (fuel : Nat)
    (next : EncoderChain → RequestContext → Outcome) (e : Encoder) (d : GoString)
    (context : RequestContext) (chain : EncoderChain) (req' : Request) (ch : EncoderChain)
    (hd : e.defaultContentType = some d)
    (hrec : e.recognises context.Param = true)
    (hret : e.Encode lib fuel next context chain = .ret none req' ch) :
    ((∀ vs, mapGet context.Request.Header ContentType = some vs →
        req'.Header = context.Request.Header) ∧
      (mapGet context.Request.Header ContentType = none →
        mapGet req'.Header ContentType = some [d]) ∧
      (∀ k, k ≠ ContentType → mapGet req'.Header k = mapGet context.Request.Header k)) ∧
    (Encoder.JsonEncoder.defaultContentType = some "application/json; charset=utf-8".toList ∧
      Encoder.PlainTextEncoder.defaultContentType = some "text/plain; charset=utf-8".toList ∧
      Encoder.XmlEncoder.defaultContentType = some "text/xml; charset=utf-8".toList ∧
      Encoder.FormEncoder.defaultContentType =
        some "application/x-www-form-urlencoded".toList) := by
  obtain ⟨r0, hr0, rfl⟩ :=
    Encoder.Encode_success_default lib fuel next e d context chain req' ch hd hrec hret
  have h := setDefaultContentType_header r0 d
  rw [hr0] at h
  exact ⟨h, rfl, rfl, rfl, rfl⟩

/-- Witness of C9: a JSON payload on a request that already carries
`Content-Type: text/csv` and an `Accept` header. -/
theorem C9_content_type_default_witness :
    (setDefaultContentType
        { exampleRequest "/a" with
          Header := [(ContentType, ["text/csv".toList]), ("Accept".toList, ["*/*".toList])]
          Body := some "[1]".toList }
        ContentTypeJsonUtf8).Header =
      [(ContentType, ["text/csv".toList]), ("Accept".toList, ["*/*".toList])] :=
  (C9_content_type_default exampleLib 0 (fun c _ => Outcome.panic c) Encoder.JsonEncoder
    ContentTypeJsonUtf8
    (exampleContext
      { exampleRequest "/a" with
        Header := [(ContentType, ["text/csv".toList]), ("Accept".toList, ["*/*".toList])] }
      (.Json (.string "[1]".toList)))
    ⟨[Encoder.JsonEncoder], 1⟩ _ ⟨[Encoder.JsonEncoder], 1⟩ rfl rfl rfl).1.1
    ["text/csv".toList] rfl

/-- C10 (the code at a failing input): on a request with the body `old` the
form encoder given `Form{"a": "1"}` returns success having set `PostForm`,
`Form` and the `Content-Type` header, and the body still is `old`; it is not
the encoded form `a=1`. -/
theorem C10_form_body_untouched :
    FormEncoder.Encode exampleLib (fun c _ => Outcome.panic c)
        (exampleContext { exampleRequest "/a" with Body := some "old".toList }
          (.Form [("a".toList, .string "1".toList)]))
        ⟨[Encoder.FormEncoder], 1⟩ =
      .ret none
        { exampleRequest "/a" with
          Body := some "old".toList
          PostForm := some [("a".toList, ["1".toList])]
          Form := some [("a".toList, ["1".toList])]
          Header := [(ContentType, [ContentTypeForm])] }
        ⟨[Encoder.FormEncoder], 1⟩ ∧
    Values.Encode [("a".toList, ["1".toList])] = "a=1".toList ∧
    some "old".toList ≠ some (Values.Encode [("a".toList, ["1".toList])]) :=
  ⟨rfl, rfl, by decide⟩

/-! ## Claims on the JSON, raw-text and XML encoders -/

theorem setDefaultContentType_fields (req : Request) (value : GoString) :
    (setDefaultContentType req value).Body = req.Body ∧
    (setDefaultContentType req value).Path = req.Path ∧
    (setDefaultContentType req value).RawQuery = req.RawQuery := by
  unfold setDefaultContentType
  split <;> exact ⟨rfl, rfl, rfl⟩

theorem bodySetVerbatim_setDefault (req : Request) (chain : EncoderChain) (s value : GoString) :
    bodySetVerbatim (.ret none (setDefaultContentType { req with Body := some s } value) chain)
      req chain s := by
  have hf := setDefaultContentType_fields { req with Body := some s } value
  refine ⟨_, rfl, hf.1, hf.2.1, hf.2.2, ?_⟩
  exact (setDefaultContentType_header { req with Body := some s } value).2.2 _ (by decide)

/-- C11 (counterexample): the raw string `not json` and the raw bytes `[1,` are
not well-formed JSON, yet `JsonEncoder` returns success for both and sets the
request body to them. -/
theorem C11_invalid_json_accepted :
    wellFormedJSON "not json".toList = false ∧
    JsonEncoder.Encode exampleLib (fun c _ => Outcome.panic c)
        (exampleContext (exampleRequest "/a") (.Json (.string "not json".toList)))
        ⟨[Encoder.JsonEncoder], 1⟩ =
      .ret none
        { exampleRequest "/a" with
          Body := some "not json".toList
          Header := [(ContentType, [ContentTypeJsonUtf8])] }
        ⟨[Encoder.JsonEncoder], 1⟩ ∧
    wellFormedJSON "[1,".toList = false ∧
    JsonEncoder.Encode exampleLib (fun c _ => Outcome.panic c)
        (exampleContext (exampleRequest "/a") (.Json (.bytes (some "[1,".toList))))
        ⟨[Encoder.JsonEncoder], 1⟩ =
      .ret none
        { exampleRequest "/a" with
          Body := some "[1,".toList
          Header := [(ContentType, [ContentTypeJsonUtf8])] }
        ⟨[Encoder.JsonEncoder], 1⟩ :=
  ⟨rfl, rfl, rfl, rfl⟩

/-- C11 (amended): `JsonEncoder` does not validate pre-formed payloads.  For a
raw string or non-nil raw bytes, well-formed JSON or not, it returns success
with the body set to exactly those bytes; nil bytes give the body `null`; it
returns an error only when the payload is another value that `json.Marshal`
rejects, the error is that serialization error, and the request is then
unchanged (the body is not set). -/
theorem C11_json_preformed_passthrough (lib : StdLib)
    (next : EncoderChain → RequestContext → Outcome) (context : RequestContext)
    (chain : EncoderChain) (payload : Value) (hp : context.Param = .Json payload) :
    (∀ s, payload = .string s →
      JsonEncoder.Encode lib next context chain =
        .ret none (setDefaultContentType { context.Request with Body := some s }
          ContentTypeJsonUtf8) chain) ∧
    (∀ b, payload = .bytes (some b) →
      JsonEncoder.Encode lib next context chain =
        .ret none (setDefaultContentType { context.Request with Body := some b }
          ContentTypeJsonUtf8) chain) ∧
    (payload = .bytes none →
      JsonEncoder.Encode lib next context chain =
        .ret none (setDefaultContentType { context.Request with Body := some "null".toList }
          ContentTypeJsonUtf8) chain) ∧
    (∀ err req' ch, JsonEncoder.Encode lib next context chain = .ret (some err) req' ch →
      err = .JsonMarshal ∧ req' = context.Request ∧ lib.jsonMarshal payload = none ∧
        (∀ s, payload ≠ .string s) ∧ (∀ b, payload ≠ .bytes b)) := by
  refine ⟨fun s hs => ?_, fun b hb => ?_, fun hb => ?_, fun err req' ch hret => ?_⟩
  · subst hs; simp [JsonEncoder.Encode, hp, RawMessageMarshalJSON]
  · subst hb; simp [JsonEncoder.Encode, hp, RawMessageMarshalJSON]
  · subst hb; simp [JsonEncoder.Encode, hp, RawMessageMarshalJSON]
  · simp only [JsonEncoder.Encode, hp] at hret
    cases payload <;> simp_all [RawMessageMarshalJSON] <;>
      (split at hret <;> simp_all)

/-- Witness of C11 (amended): the raw string `not json` on a fresh request. -/
theorem C11_json_preformed_passthrough_witness :
    JsonEncoder.Encode exampleLib (fun c _ => Outcome.panic c)
        (exampleContext (exampleRequest "/a") (.Json (.string "not json".toList)))
        ⟨[Encoder.JsonEncoder], 1⟩ =
      .ret none (setDefaultContentType
        { exampleRequest "/a" with Body := some "not json".toList } ContentTypeJsonUtf8)
        ⟨[Encoder.JsonEncoder], 1⟩ :=
  (C11_json_preformed_passthrough exampleLib (fun c _ => Outcome.panic c)
    (exampleContext (exampleRequest "/a") (.Json (.string "not json".toList)))
    ⟨[Encoder.JsonEncoder], 1⟩ (.string "not json".toList) rfl).1 _ rfl

/-- C12: for every string `s` and every request, the raw-text encoder given `s`,
the XML encoder given the string payload `s` and the JSON encoder given the raw
string payload `s` each return success with the request body set to exactly
`s`, the path, the query string and the cookies being those of the request;
for the raw string `{"a":1}` the JSON body is `{"a":1}`. -/
theorem C12_verbatim_body (lib : StdLib) (next : EncoderChain → RequestContext → Outcome)
    (context : RequestContext) (chain : EncoderChain) (s : GoString) :
    bodySetVerbatim (PlainTextEncoder.Encode next { context with Param := .string s } chain)
      context.Request chain s ∧
    bodySetVerbatim (XmlEncoder.Encode lib next { context with Param := .Xml (.string s) } chain)
      context.Request chain s ∧
    bodySetVerbatim
      (JsonEncoder.Encode lib next { context with Param := .Json (.string s) } chain)
      context.Request chain s ∧
    bodySetVerbatim
      (JsonEncoder.Encode lib next
        { context with Param := .Json (.string "\x7b\"a\":1\x7d".toList) } chain)
      context.Request chain "\x7b\"a\":1\x7d".toList := by
  refine ⟨?_, ?_, ?_, ?_⟩
  · exact bodySetVerbatim_setDefault context.Request chain s ContentTypePlainText
  · exact bodySetVerbatim_setDefault context.Request chain s ContentTypeXmlUtf8
  · exact bodySetVerbatim_setDefault context.Request chain s ContentTypeJsonUtf8
  · exact bodySetVerbatim_setDefault context.Request chain _ ContentTypeJsonUtf8

/-! ## Claims on dispatch order and context -/

/-- A parameter is recognised by at most one kind of encoder. -/
theorem Encoder.recognises_unique (e₁ e₂ : Encoder) (v : Value)
    (h₁ : e₁.recognises v = true) (h₂ : e₂.recognises v = true) : e₁ = e₂ := by
  cases e₁ <;> cases v <;> simp [Encoder.recognises] at h₁ <;>
    cases e₂ <;> simp [Encoder.recognises] at h₂ <;> rfl

theorem exists_first_true {α : Type} (p : α → Bool) :
    ∀ l : List α, (∃ x ∈ l, p x = true) →
      ∃ pre e post, l = pre ++ e :: post ∧ (∀ x ∈ pre, p x = false) ∧ p e = true
  | [], h => by simp at h
  | a :: l, h => by
    cases ha : p a
    · have h' : ∃ x ∈ l, p x = true := by
        obtain ⟨x, hx, hpx⟩ := h
        rcases List.mem_cons.mp hx with rfl | hx
        · rw [ha] at hpx; cases hpx
        · exact ⟨x, hx, hpx⟩
      obtain ⟨pre, e, post, rfl, hpre, he⟩ := exists_first_true p l h'
      refine ⟨a :: pre, e, post, rfl, ?_, he⟩
      intro x hx
      rcases List.mem_cons.mp hx with rfl | hx
      · exact ha
      · exact hpre x hx
    · exact ⟨[], a, l, rfl, by simp, ha⟩

theorem Outcome.withChain_withChain (o : Outcome) (c c' : EncoderChain) :
    (o.withChain c).withChain c' = o.withChain c' := by
  cases o <;> rfl

/-- The outcome of `Next` from cursor 0, the chain left aside, is that of the
one encoder kind that recognises the parameter run on any chain, or
`EncoderNotFound` with the request as given. -/
theorem EncoderChain.Next_withChain (lib : StdLib) (fuel : Nat) (l : List Encoder)
    (context : RequestContext) (c₀ : EncoderChain) :
    ((∀ e ∈ l, e.recognises context.Param = false) ∧
      (EncoderChain.Next lib fuel ⟨l, 0⟩ context).withChain c₀ =
        .ret (some .EncoderNotFound) context.Request c₀) ∨
    (∃ e ∈ l, e.recognises context.Param = true ∧
      (EncoderChain.Next lib fuel ⟨l, 0⟩ context).withChain c₀ =
        (e.Encode lib fuel (fun c _ => Outcome.panic c) context c₀).withChain c₀) := by
  by_cases h : ∃ x ∈ l, x.recognises context.Param = true
  · right
    obtain ⟨pre, e, post, rfl, hpre, he⟩ := exists_first_true _ l h
    refine ⟨e, by simp, he, ?_⟩
    rw [EncoderChain.Next_first_recognises lib fuel pre post e context hpre pre.length 0
      (by simp)]
    rw [Encoder.Encode_withChain_of_recognises lib fuel _ (fun c _ => Outcome.panic c) e context
      ⟨pre ++ e :: post, pre.length + 1⟩ c₀ he, Outcome.withChain_withChain]
  · left
    have hn : ∀ e ∈ l, e.recognises context.Param = false := by
      intro e he
      cases hr : e.recognises context.Param
      · rfl
      · exact absurd ⟨e, he, hr⟩ h
    refine ⟨hn, ?_⟩
    rw [EncoderChain.Next_none_recognises lib fuel l context hn l.length 0 (by simp)]
    rfl

/-- C13: two chains of built-in handlers with the same handler kinds, in any
order, both at cursor 0, give for every request context the same outcome of
`Next` (success, the same failure or `EncoderNotFound`, a panic or a scan that
does not end) with the same request; only the chain left behind differs. -/
theorem C13_dispatch_order_irrelevant (lib : StdLib) (fuel : Nat) (l₁ l₂ : List Encoder)
    (context : RequestContext) (hsame : ∀ e, e ∈ l₁ ↔ e ∈ l₂) (c₀ : EncoderChain) :
    (EncoderChain.Next lib fuel ⟨l₁, 0⟩ context).withChain c₀ =
      (EncoderChain.Next lib fuel ⟨l₂, 0⟩ context).withChain c₀ := by
  rcases EncoderChain.Next_withChain lib fuel l₁ context c₀ with ⟨hn₁, h₁⟩ | ⟨e₁, he₁, hr₁, h₁⟩ <;>
    rcases EncoderChain.Next_withChain lib fuel l₂ context c₀ with
      ⟨hn₂, h₂⟩ | ⟨e₂, he₂, hr₂, h₂⟩
  · rw [h₁, h₂]
  · have := hn₁ e₂ ((hsame e₂).mpr he₂)
    rw [hr₂] at this
    cases this
  · have := hn₂ e₁ ((hsame e₁).mp he₁)
    rw [hr₁] at this
    cases this
  · have he := Encoder.recognises_unique e₁ e₂ _ hr₁ hr₂
    subst he
    rw [h₁, h₂]

/-- Witness of C13: a JSON parameter on two orders of the path, JSON and
raw-text handlers. -/
theorem C13_dispatch_order_irrelevant_witness :
    (EncoderChain.Next exampleLib 0
        ⟨[Encoder.PathEncoder, Encoder.JsonEncoder, Encoder.PlainTextEncoder], 0⟩
        (exampleContext (exampleRequest "/a") (.Json (.string "[1]".toList)))).withChain ⟨[], 0⟩ =
      (EncoderChain.Next exampleLib 0
        ⟨[Encoder.PlainTextEncoder, Encoder.PathEncoder, Encoder.JsonEncoder], 0⟩
        (exampleContext (exampleRequest "/a") (.Json (.string "[1]".toList)))).withChain ⟨[], 0⟩ :=
  C13_dispatch_order_irrelevant exampleLib 0 _ _ _ (by intro e; cases e <;> simp) ⟨[], 0⟩

theorem Encoder.Encode_context_congr (lib : StdLib) (fuel : Nat)
    (next next' : EncoderChain → RequestContext → Outcome) (e : Encoder)
    (c₁ c₂ : RequestContext) (chain : EncoderChain)
    (hreq : c₁.Request = c₂.Request) (hparam : c₁.Param = c₂.Param)
    (hnext : next chain c₁ = next' chain c₂) :
    e.Encode lib fuel next c₁ chain = e.Encode lib fuel next' c₂ chain := by
  cases hr : e.recognises c₁.Param
  · rw [Encoder.Encode_of_not_recognises _ _ _ _ _ _ hr,
      Encoder.Encode_of_not_recognises _ _ _ _ _ _ (hparam ▸ hr), hnext]
  · rw [Encoder.Encode_of_recognises lib fuel next (fun c _ => Outcome.panic c) e c₁ chain hr,
      Encoder.Encode_of_recognises lib fuel next' (fun c _ => Outcome.panic c) e c₂ chain
        (hparam ▸ hr)]
    obtain ⟨r₁, s₁, ps₁, p₁, i₁⟩ := c₁
    obtain ⟨r₂, s₂, ps₂, p₂, i₂⟩ := c₂
    simp only at hreq hparam
    subst hreq hparam
    cases e <;> rfl

theorem EncoderChain.Next_context_congr (lib : StdLib) (fuel : Nat) (l : List Encoder)
    (c₁ c₂ : RequestContext) (hreq : c₁.Request = c₂.Request) (hparam : c₁.Param = c₂.Param) :
    ∀ d i, i + d = l.length →
      EncoderChain.Next lib fuel ⟨l, i⟩ c₁ = EncoderChain.Next lib fuel ⟨l, i⟩ c₂ := by
  intro d
  induction d with
  | zero =>
    intro i hi
    rw [EncoderChain.Next_of_ge lib fuel ⟨l, i⟩ c₁ (by simp; omega),
      EncoderChain.Next_of_ge lib fuel ⟨l, i⟩ c₂ (by simp; omega), hreq]
  | succ d ih =>
    intro i hi
    have hlt : i < l.length := by omega
    rw [EncoderChain.Next_of_lt lib fuel ⟨l, i⟩ c₁ hlt,
      EncoderChain.Next_of_lt lib fuel ⟨l, i⟩ c₂ hlt]
    exact Encoder.Encode_context_congr lib fuel _ _ _ c₁ c₂ _ hreq hparam (ih (i + 1) (by omega))

/-- C17: two request contexts with the same request and the same current
parameter, whatever their `Params`, `ParamIndex` and `Response`, give on every
chain of built-in handlers the same outcome of `Next`: the same result, the
same request and the same cursor. -/
theorem C17_depends_on_request_and_param (lib : StdLib) (fuel : Nat) (c : EncoderChain)
    (c₁ c₂ : RequestContext) (hreq : c₁.Request = c₂.Request) (hparam : c₁.Param = c₂.Param) :
    c.Next lib fuel c₁ = c.Next lib fuel c₂ := by
  by_cases h : c.index ≤ c.encoders.length
  · exact EncoderChain.Next_context_congr lib fuel c.encoders c₁ c₂ hreq hparam
      (c.encoders.length - c.index) c.index (by omega)
  · rw [EncoderChain.Next_of_ge lib fuel c c₁ (by omega),
      EncoderChain.Next_of_ge lib fuel c c₂ (by omega), hreq]

/-- Witness of C17: the same request and parameter with another response,
parameter list and parameter index. -/
theorem C17_depends_on_request_and_param_witness :
    EncoderChain.Next exampleLib 0 ⟨[Encoder.PathEncoder, Encoder.PlainTextEncoder], 0⟩
        (exampleContext (exampleRequest "/a") (.string "hi".toList)) =
      EncoderChain.Next exampleLib 0 ⟨[Encoder.PathEncoder, Encoder.PlainTextEncoder], 0⟩
        { Request := exampleRequest "/a"
          Response := some 7
          Params := [.bool true, .string "hi".toList, .nil]
          Param := .string "hi".toList
          ParamIndex := 1 } :=
  C17_depends_on_request_and_param exampleLib 0 _ _ _ rfl rfl

/-! ## Claims on the chain operations -/

theorem EncoderChain.Add_eq (Encoders : List Encoder) :
    ∀ c : EncoderChain, c.Add Encoders = ⟨c.encoders ++ Encoders, c.index⟩ := by
  induction Encoders with
  | nil => intro c; simp [EncoderChain.Add]
  | cons e es ih =>
    intro c
    have := ih ⟨c.encoders ++ [e], c.index⟩
    simp only [EncoderChain.Add, List.foldl_cons] at this ⊢
    rw [this]
    simp

/-- A handler that recognises the parameter leaves the chain it was handed,
whether it returns or panics. -/
theorem Encoder.Encode_chainLeft_of_recognises (lib : StdLib) (fuel : Nat)
    (next : EncoderChain → RequestContext → Outcome) (e : Encoder)
    (context : RequestContext) (chain : EncoderChain)
    (h : e.recognises context.Param = true) (c' : EncoderChain)
    (hleft : (e.Encode lib fuel next context chain).chainLeft = some c') :
    c' = chain := by
  rw [Encoder.Encode_withChain_of_recognises lib fuel next next e context chain chain h] at hleft
  generalize e.Encode lib fuel next context chain = o at hleft
  cases o <;> simp_all [Outcome.withChain, Outcome.chainLeft]

/-- No handler that recognises the parameter raises the panic of the indexing
in `Next`. -/
theorem Encoder.Encode_ne_indexPanic_of_recognises (lib : StdLib) (fuel : Nat)
    (next : EncoderChain → RequestContext → Outcome) (e : Encoder)
    (context : RequestContext) (chain : EncoderChain)
    (h : e.recognises context.Param = true) (c' : EncoderChain) :
    e.Encode lib fuel next context chain ≠ .indexPanic c' := by
  cases e <;> cases hp : context.Param <;>
    simp_all [Encoder.recognises, Encoder.Encode, PathEncoder.Encode, QueryEncoder.Encode,
      HeaderEncoder.Encode, FormEncoder.Encode, JsonEncoder.Encode, CookieEncoder.Encode,
      BasicAuthEncoder.Encode, MultiPartEncoder.Encode, PlainTextEncoder.Encode,
      XmlEncoder.Encode, MapperEncoder.Encode]
  all_goals (repeat' split) <;> simp_all

/-- A `Next` call that ends, by a return or a panic, leaves the handlers as they
were and the cursor at or after where it was, within the handlers. -/
theorem EncoderChain.Next_chainLeft (lib : StdLib) (fuel : Nat) (l : List Encoder)
    (context : RequestContext) (c' : EncoderChain) :
    ∀ d i, i + d = l.length →
      (EncoderChain.Next lib fuel ⟨l, i⟩ context).chainLeft = some c' →
      c'.encoders = l ∧ i ≤ c'.index ∧ c'.index ≤ l.length := by
  intro d
  induction d with
  | zero =>
    intro i hi hleft
    rw [EncoderChain.Next_of_ge lib fuel ⟨l, i⟩ context (by simp; omega)] at hleft
    simp only [Outcome.chainLeft, Option.some.injEq] at hleft
    rw [← hleft]
    simp; omega
  | succ d ih =>
    intro i hi hleft
    have hlt : i < l.length := by omega
    rw [EncoderChain.Next_of_lt lib fuel ⟨l, i⟩ context hlt] at hleft
    cases hr : (l.get ⟨i, hlt⟩).recognises context.Param
    · rw [Encoder.Encode_of_not_recognises _ _ _ _ _ _ hr] at hleft
      have := ih (i + 1) (by omega) hleft
      exact ⟨this.1, by omega, this.2.2⟩
    · have := Encoder.Encode_chainLeft_of_recognises _ _ _ _ _ _ hr _ hleft
      rw [this]
      simp; omega

theorem EncoderChain.Next_chainLeft_monotone (lib : StdLib) (fuel : Nat) (c : EncoderChain)
    (context : RequestContext) (c' : EncoderChain)
    (hleft : (c.Next lib fuel context).chainLeft = some c') :
    c'.encoders = c.encoders ∧ c.index ≤ c'.index ∧
      (c.index ≤ c.encoders.length → c'.index ≤ c'.encoders.length) := by
  by_cases h : c.index ≤ c.encoders.length
  · have := EncoderChain.Next_chainLeft lib fuel c.encoders context c'
      (c.encoders.length - c.index) c.index (by omega) hleft
    exact ⟨this.1, this.2.1, fun _ => by rw [this.1]; exact this.2.2⟩
  · rw [EncoderChain.Next_of_ge lib fuel c context (by omega)] at hleft
    simp only [Outcome.chainLeft, Option.some.injEq] at hleft
    rw [← hleft]
    exact ⟨rfl, Nat.le_refl _, fun h' => absurd h' h⟩

/-- The indexing `c.encoders[c.index-1]` in `Next` never panics, from whatever
chain state `Next` is called: the guard `c.index < len(c.encoders)` stands
before it. -/
theorem EncoderChain.Next_ne_indexPanic (lib : StdLib) (fuel : Nat) (l : List Encoder)
    (context : RequestContext) (c' : EncoderChain) :
    ∀ d i, i + d = l.length → EncoderChain.Next lib fuel ⟨l, i⟩ context ≠ .indexPanic c' := by
  intro d
  induction d with
  | zero =>
    intro i hi
    rw [EncoderChain.Next_of_ge lib fuel ⟨l, i⟩ context (by simp; omega)]
    simp
  | succ d ih =>
    intro i hi
    have hlt : i < l.length := by omega
    rw [EncoderChain.Next_of_lt lib fuel ⟨l, i⟩ context hlt]
    cases hr : (l.get ⟨i, hlt⟩).recognises context.Param
    · rw [Encoder.Encode_of_not_recognises _ _ _ _ _ _ hr]
      exact ih (i + 1) (by omega)
    · exact Encoder.Encode_ne_indexPanic_of_recognises _ _ _ _ _ _ hr _

/-- C14: `Reset` leaves the chain with no handlers and cursor 0 (the chain it
returns), after which `First` is the nil sentinel and `Next` returns
`EncoderNotFound`; on a chain with a handler, `First` is the handler at
position 0 whatever the cursor (`First` assigns nothing); and
`NewEncoderChain(e1..en)` is the chain with the handlers `e1..en` in that
order and cursor 0. -/
theorem C14_reset_first_new (lib : StdLib) (fuel : Nat) (c : EncoderChain)
    (context : RequestContext) :
    c.Reset = ⟨[], 0⟩ ∧
    c.Reset.First = none ∧
    c.Reset.Next lib fuel context = .ret (some .EncoderNotFound) context.Request c.Reset ∧
    (∀ (e : Encoder) (rest : List Encoder) (i : Nat),
      EncoderChain.First ⟨e :: rest, i⟩ = some e) ∧
    (∀ encoders : List Encoder, NewEncoderChain encoders = ⟨encoders, 0⟩) := by
  refine ⟨rfl, rfl, ?_, fun e rest i => ?_, fun encoders => ?_⟩
  · exact EncoderChain.Next_of_ge lib fuel c.Reset context (by simp [EncoderChain.Reset])
  · simp [EncoderChain.First]
  · simp [NewEncoderChain, EncoderChain.Add_eq, EncoderChain.Reset]

/-- C15: `Add(e1..en)` on a chain with handlers `L` and cursor `c` leaves the
handlers `L` followed by `e1..en` in argument order and the cursor `c`, also
for no arguments; so `Add(a...)` then `Add(b...)` is one `Add` of `a` followed
by `b`. -/
theorem C15_add_appends (c : EncoderChain) (a b : List Encoder) :
    c.Add a = ⟨c.encoders ++ a, c.index⟩ ∧
    c.Add [] = c ∧
    (c.Add a).Add b = c.Add (a ++ b) := by
  refine ⟨EncoderChain.Add_eq a c, ?_, ?_⟩
  · simp [EncoderChain.Add_eq]
  · simp [EncoderChain.Add_eq]

/-- C16: in every chain state reachable from `NewEncoderChain` by `Add`, `Reset`,
`First` and `Next` calls, those that panic included, the cursor is at most the
number of handlers; `Next`, called in any chain state, never ends in the panic
of its indexing `encoders[index-1]` (the index is in range); and a `Next` call
that ends leaves the handlers as they were and the cursor at least where it
was. -/
theorem C16_cursor_in_range (lib : StdLib) :
    (∀ c, EncoderChain.Reachable lib c → c.index ≤ c.encoders.length) ∧
    (∀ (c : EncoderChain) fuel context c', c.Next lib fuel context ≠ .indexPanic c') ∧
    (∀ (c : EncoderChain) fuel context c',
      (c.Next lib fuel context).chainLeft = some c' →
        c'.encoders = c.encoders ∧ c.index ≤ c'.index) := by
  refine ⟨fun c hc => ?_, fun c fuel context c' => ?_, fun c fuel context c' hleft => ?_⟩
  · induction hc with
    | new encoders => simp [NewEncoderChain, EncoderChain.Add_eq, EncoderChain.Reset]
    | add c encoders _ ih => simp [EncoderChain.Add_eq]; omega
    | reset c _ _ => simp [EncoderChain.Reset]
    | first c e _ _ ih => exact ih
    | next c fuel context c' _ hleft ih =>
      exact (EncoderChain.Next_chainLeft_monotone lib fuel c context c' hleft).2.2 ih
  · by_cases h : c.index ≤ c.encoders.length
    · exact EncoderChain.Next_ne_indexPanic lib fuel c.encoders context c'
        (c.encoders.length - c.index) c.index (by omega)
    · rw [EncoderChain.Next_of_ge lib fuel c context (by omega)]
      simp
  · have := EncoderChain.Next_chainLeft_monotone lib fuel c context c' hleft
    exact ⟨this.1, this.2.1⟩

/-- Witness of C16: the chain left by a `Next` call that panics in the query
handler (a nil value) is a reachable state and has its cursor in range; the
call does not end in the panic of the indexing. -/
theorem C16_cursor_in_range_witness :
    EncoderChain.Next exampleLib 0
        (NewEncoderChain [Encoder.PathEncoder, Encoder.QueryEncoder, Encoder.JsonEncoder])
        (exampleContext (exampleRequest "/a") (.Query [("a".toList, .nil)])) =
      .panic ⟨[Encoder.PathEncoder, Encoder.QueryEncoder, Encoder.JsonEncoder], 2⟩ ∧
    (2 : Nat) ≤ [Encoder.PathEncoder, Encoder.QueryEncoder, Encoder.JsonEncoder].length ∧
    EncoderChain.Next exampleLib 0
        (NewEncoderChain [Encoder.PathEncoder, Encoder.QueryEncoder, Encoder.JsonEncoder])
        (exampleContext (exampleRequest "/a") (.Query [("a".toList, .nil)])) ≠
      .indexPanic ⟨[Encoder.PathEncoder, Encoder.QueryEncoder, Encoder.JsonEncoder], 2⟩ :=
  ⟨rfl,
    (C16_cursor_in_range exampleLib).1
      ⟨[Encoder.PathEncoder, Encoder.QueryEncoder, Encoder.JsonEncoder], 2⟩
      (EncoderChain.Reachable.next
        (NewEncoderChain [Encoder.PathEncoder, Encoder.QueryEncoder, Encoder.JsonEncoder]) 0
        (exampleContext (exampleRequest "/a") (.Query [("a".toList, .nil)])) _
        (EncoderChain.Reachable.new _) rfl),
    (C16_cursor_in_range exampleLib).2.1 _ 0 _ _⟩

/-- A dispatch from position `i` of the handlers `post` standing behind other
handlers `front` is, the chain left aside, the dispatch over `post` alone. -/
theorem EncoderChain.Next_behind (lib : StdLib) (fuel : Nat) (front post : List Encoder)
    (context : RequestContext) (c₀ : EncoderChain) :
    ∀ d i, i + d = post.length →
      (EncoderChain.Next lib fuel ⟨front ++ post, front.length + i⟩ context).withChain c₀ =
        (EncoderChain.Next lib fuel ⟨post, i⟩ context).withChain c₀ := by
  intro d
  induction d with
  | zero =>
    intro i hi
    rw [EncoderChain.Next_of_ge lib fuel ⟨front ++ post, front.length + i⟩ context
        (by simp; omega),
      EncoderChain.Next_of_ge lib fuel ⟨post, i⟩ context (by simp; omega)]
    rfl
  | succ d ih =>
    intro i hi
    have hlt : i < post.length := by omega
    have hlt' : front.length + i < (front ++ post).length := by simp; omega
    have hget : (front ++ post).get ⟨front.length + i, hlt'⟩ = post.get ⟨i, hlt⟩ := by
      simp [List.getElem_append_right]
    rw [EncoderChain.Next_of_lt lib fuel ⟨front ++ post, front.length + i⟩ context hlt',
      EncoderChain.Next_of_lt lib fuel ⟨post, i⟩ context hlt]
    simp only [hget]
    cases hr : (post.get ⟨i, hlt⟩).recognises context.Param
    · rw [Encoder.Encode_of_not_recognises _ _ _ _ _ _ hr,
        Encoder.Encode_of_not_recognises _ _ _ _ _ _ hr]
      exact ih (i + 1) (by omega)
    · rw [Encoder.Encode_withChain_of_recognises lib fuel _ (fun c _ => Outcome.panic c) _ context
          _ c₀ hr,
        Encoder.Encode_withChain_of_recognises lib fuel (EncoderChain.Next lib fuel)
          (fun c _ => Outcome.panic c) _ context ⟨post, i + 1⟩ c₀ hr]
      simp only [Outcome.withChain_withChain]

/-- C18 (counterexample): on the chain `NewEncoderChain(FormEncoder)` and a
request whose query string is `a=%zz`, the form parameter `{a: "1"}` is
recognised, yet the first `Next` does not succeed: it returns the error of
`ParseForm`. -/
theorem C18_first_next_may_fail :
    Encoder.FormEncoder.recognises
        (exampleContext { exampleRequest "/a" with RawQuery := "a=%zz".toList }
          (.Form [("a".toList, .string "1".toList)])).Param = true ∧
    EncoderChain.Next exampleLib 0 (NewEncoderChain [Encoder.FormEncoder])
        (exampleContext { exampleRequest "/a" with RawQuery := "a=%zz".toList }
          (.Form [("a".toList, .string "1".toList)])) =
      .ret (some .ParseQuery)
        { exampleRequest "/a" with
          RawQuery := "a=%zz".toList
          PostForm := some [("a".toList, ["1".toList])]
          Form := some [("a".toList, ["1".toList])] }
        ⟨[Encoder.FormEncoder], 1⟩ :=
  ⟨rfl, rfl⟩

/-- From any cursor, `Next` passes over the handlers that do not recognise the
parameter and is the call of the first one that does, on the chain whose cursor
stands behind it. -/
theorem EncoderChain.Next_first_recognises_from (lib : StdLib) (fuel : Nat)
    (post : List Encoder) (e : Encoder) (context : RequestContext) :
    ∀ (mid front : List Encoder), (∀ x ∈ mid, x.recognises context.Param = false) →
      EncoderChain.Next lib fuel ⟨front ++ mid ++ e :: post, front.length⟩ context =
        e.Encode lib fuel (EncoderChain.Next lib fuel) context
          ⟨front ++ mid ++ e :: post, front.length + mid.length + 1⟩ := by
  intro mid
  induction mid with
  | nil =>
    intro front _
    have hlt : front.length < (front ++ [] ++ e :: post).length := by simp
    have hget : (front ++ [] ++ e :: post).get ⟨front.length, hlt⟩ = e := by
      simp [List.getElem_append_right]
    rw [EncoderChain.Next_of_lt lib fuel ⟨front ++ [] ++ e :: post, front.length⟩ context hlt]
    simp only [hget, List.length_nil, Nat.add_zero]
  | cons x mid ih =>
    intro front hmid
    have hlt : front.length < (front ++ x :: mid ++ e :: post).length := by simp
    have hget : (front ++ x :: mid ++ e :: post).get ⟨front.length, hlt⟩ = x := by
      simp [List.getElem_append_right, List.append_assoc]
    rw [EncoderChain.Next_of_lt lib fuel ⟨front ++ x :: mid ++ e :: post, front.length⟩ context
      hlt]
    simp only [hget]
    rw [Encoder.Encode_of_not_recognises _ _ _ _ _ _ (hmid x (by simp))]
    have := ih (front ++ [x]) (fun y hy => hmid y (List.mem_cons_of_mem _ hy))
    simp only [List.append_assoc, List.singleton_append, List.length_append,
      List.length_singleton, List.length_cons, List.length_nil, Nat.zero_add] at this ⊢
    rw [this]
    congr 2
    omega

/-- C18 (amended): `Next` never rewinds the cursor.  On every chain of built-in
handlers, at whatever cursor `Next` is called (the handlers `front` before the
cursor, the handlers `mid` from the cursor on that do not recognise the
parameter, the handler `e` at position `k` that does), when the call ends, by
a return with success or with that handler's error or by that handler's panic,
the cursor is `k + 1`; a second `Next` on that chain is, the chain left aside,
the dispatch over the handlers behind position `k` only, never from the head;
with no handler behind `k`, as on `NewEncoderChain(h)`, the second `Next`
returns `EncoderNotFound` with the request it is given untouched.  `Add` keeps
the cursor and a `Next` call that ends never lowers it. -/
theorem C18_cursor_not_rewound (lib : StdLib) (fuel : Nat) (front mid post : List Encoder)
    (e : Encoder) (context : RequestContext) (c' : EncoderChain)
    (hmid : ∀ x ∈ mid, x.recognises context.Param = false)
    (he : e.recognises context.Param = true)
    (hleft : (EncoderChain.Next lib fuel ⟨front ++ mid ++ e :: post, front.length⟩
      context).chainLeft = some c') :
    c' = ⟨front ++ mid ++ e :: post, front.length + mid.length + 1⟩ ∧
    (∀ fuel' context' c₀,
      (c'.Next lib fuel' context').withChain c₀ =
        (EncoderChain.Next lib fuel' ⟨post, 0⟩ context').withChain c₀) ∧
    (post = [] → ∀ fuel' context',
      c'.Next lib fuel' context' = .ret (some .EncoderNotFound) context'.Request c') ∧
    (∀ (h : Encoder) (context₁ : RequestContext) (c₁ : EncoderChain),
      h.recognises context₁.Param = true →
      (EncoderChain.Next lib fuel (NewEncoderChain [h]) context₁).chainLeft = some c₁ →
        c₁ = ⟨[h], 1⟩ ∧ ∀ fuel' context',
          c₁.Next lib fuel' context' = .ret (some .EncoderNotFound) context'.Request c₁) ∧
    (∀ (c : EncoderChain) Encoders, (c.Add Encoders).index = c.index) ∧
    (∀ (c : EncoderChain) fuel' context' c'',
      (c.Next lib fuel' context').chainLeft = some c'' → c.index ≤ c''.index) := by
  rw [EncoderChain.Next_first_recognises_from lib fuel post e context mid front hmid] at hleft
  have hc := Encoder.Encode_chainLeft_of_recognises _ _ _ _ _ _ he _ hleft
  subst hc
  refine ⟨rfl, fun fuel' context' c₀ => ?_, fun hpost fuel' context' => ?_,
    fun h context₁ c₁ hh hleft₁ => ?_,
    fun c Encoders => by simp [EncoderChain.Add_eq],
    fun c fuel' context' c'' h =>
      (EncoderChain.Next_chainLeft_monotone lib fuel' c context' c'' h).2.1⟩
  · have := EncoderChain.Next_behind lib fuel' (front ++ mid ++ [e]) post context' c₀
      post.length 0 (by simp)
    simpa [Nat.add_assoc] using this
  · subst hpost
    exact EncoderChain.Next_of_ge lib fuel' _ context' (by simp; omega)
  · have hnew : NewEncoderChain [h] = ⟨[] ++ [] ++ h :: [], ([] : List Encoder).length⟩ := by
      simp [NewEncoderChain, EncoderChain.Add_eq, EncoderChain.Reset]
    rw [hnew, EncoderChain.Next_first_recognises_from lib fuel [] h context₁ [] []
      (by simp)] at hleft₁
    have hc₁ := Encoder.Encode_chainLeft_of_recognises _ _ _ _ _ _ hh _ hleft₁
    subst hc₁
    exact ⟨rfl, fun fuel' context' => EncoderChain.Next_of_ge lib fuel' _ context' (by simp)⟩

/-- Witness of C18 (amended): on the chain raw text, header, raw text with the
cursor at 1, `Next` of a string parameter passes over the header handler, is
matched at position 2 and leaves the cursor at 3; the second `Next` returns
`EncoderNotFound` with the request untouched. -/
theorem C18_cursor_not_rewound_witness :
    EncoderChain.Next exampleLib 0
        ⟨[Encoder.PlainTextEncoder, Encoder.HeaderEncoder, Encoder.PlainTextEncoder], 1⟩
        (exampleContext (exampleRequest "/a") (.string "hi".toList)) =
      .ret none
        (setDefaultContentType { exampleRequest "/a" with Body := some "hi".toList }
          ContentTypePlainText)
        ⟨[Encoder.PlainTextEncoder, Encoder.HeaderEncoder, Encoder.PlainTextEncoder], 3⟩ ∧
    EncoderChain.Next exampleLib 0
        ⟨[Encoder.PlainTextEncoder, Encoder.HeaderEncoder, Encoder.PlainTextEncoder], 3⟩
        (exampleContext (exampleRequest "/a") (.string "hi".toList)) =
      .ret (some .EncoderNotFound) (exampleRequest "/a")
        ⟨[Encoder.PlainTextEncoder, Encoder.HeaderEncoder, Encoder.PlainTextEncoder], 3⟩ :=
  ⟨rfl,
    (C18_cursor_not_rewound exampleLib 0 [Encoder.PlainTextEncoder] [Encoder.HeaderEncoder] []
      Encoder.PlainTextEncoder (exampleContext (exampleRequest "/a") (.string "hi".toList))
      ⟨[Encoder.PlainTextEncoder, Encoder.HeaderEncoder, Encoder.PlainTextEncoder], 3⟩
      (by simp [Encoder.recognises, exampleContext]) rfl rfl).2.2.1 rfl 0
      (exampleContext (exampleRequest "/a") (.string "hi".toList))⟩

/-! ## Termination of the scan -/

/-- A string splits at the first occurrence of a character. -/
theorem split_at_first (c : Char) : ∀ l : GoString,
    ∃ k r, l = k ++ r ∧ c ∉ k ∧ (r = [] ∨ ∃ x, r = c :: x)
  | [] => ⟨[], [], rfl, by simp, Or.inl rfl⟩
  | a :: l => by
    by_cases h : a = c
    · exact ⟨[], a :: l, rfl, by simp, Or.inr ⟨l, by rw [h]⟩⟩
    · obtain ⟨k, r, hl, hk, hr⟩ := split_at_first c l
      refine ⟨a :: k, r, by rw [hl]; rfl, ?_, hr⟩
      simp only [List.mem_cons, not_or]
      exact ⟨fun hc => h hc.symm, hk⟩

/-- Replacing a placeholder by text without `:` does not add any `:`. -/
theorem count_colon_Replace (k new : GoString) (hnew : ':' ∉ new) :
    ∀ (n : Nat) (s : GoString), s.length ≤ n →
      (Replace s (':' :: k) new).count ':' ≤ s.count ':' := by
  intro n
  induction n with
  | zero =>
    intro s hs
    have : s = [] := List.length_eq_zero.mp (by omega)
    subst this
    simp [Replace_nil]
  | succ n ih =>
    intro s hs
    cases s with
    | nil => simp [Replace_nil]
    | cons c t =>
      by_cases hp : (':' :: k) <+: c :: t
      · obtain ⟨s', hs'⟩ := hp
        rw [← hs', Replace_match, List.count_append, List.count_append,
          List.count_eq_zero_of_not_mem hnew]
        have hlen : s'.length ≤ n := by
          have := congrArg List.length hs'
          simp at this hs
          omega
        have := ih s' hlen
        omega
      · rw [Replace_no_match _ _ _ _ hp]
        have := ih t (by simp at hs; omega)
        simp only [List.count_cons]
        omega

/-- From a state whose scanned prefix `A` has no `:`, and with no `:` in the
converted values of the map, the scan ends with a path without `:`. -/
theorem pathLoop_terminates (lib : StdLib) (m : List (GoString × Value))
    (hm : ∀ kv ∈ m, ':' ∉ ToString lib kv.2) :
    ∀ (n : Nat) (A B : GoString) (i : Nat), B.count ':' ≤ n → ':' ∉ A → i ≤ A.length →
      ∃ r, ':' ∉ r ∧ ∃ N, ∀ fuel, N ≤ fuel → pathLoop lib m fuel (A ++ B) i = some r := by
  intro n
  induction n with
  | zero =>
    intro A B i hB hA _
    have hB' : ':' ∉ B := List.count_eq_zero.mp (by omega)
    have hAB : ':' ∉ A ++ B := by simp [hA, hB']
    exact ⟨A ++ B, hAB, (A ++ B).length + 1,
      fun fuel hfuel => pathLoop_of_no_colon lib m _ hAB fuel i (by omega)⟩
  | succ n ih =>
    intro A B i hB hA hi
    obtain ⟨B₁, rest₁, rfl, hB₁, hrest₁⟩ := split_at_first ':' B
    rcases hrest₁ with rfl | ⟨x, rfl⟩
    · have hAB : ':' ∉ A ++ (B₁ ++ []) := by simp [hA, hB₁]
      exact ⟨_, hAB, (A ++ (B₁ ++ [])).length + 1,
        fun fuel hfuel => pathLoop_of_no_colon lib m _ hAB fuel i (by omega)⟩
    · obtain ⟨k, rest', rfl, hk, hrest'⟩ := split_at_first '/' x
      have hv := no_colon_lookup lib m hm k
      have hA₁ : ':' ∉ A ++ B₁ := by simp [hA, hB₁]
      have hpath : A ++ (B₁ ++ ':' :: (k ++ rest')) = (A ++ B₁) ++ ':' :: k ++ rest' := by simp
      have hrep : Replace ((A ++ B₁) ++ ':' :: k ++ rest') (':' :: k)
          (ToString lib ((mapGet m k).getD Value.nil)) =
          (A ++ B₁) ++ (ToString lib ((mapGet m k).getD Value.nil) ++
            Replace rest' (':' :: k) (ToString lib ((mapGet m k).getD Value.nil))) := by
        rw [List.append_assoc, Replace_append_of_no_colon _ _ _ _ hA₁]
        have := Replace_match ':' k (ToString lib ((mapGet m k).getD Value.nil)) rest'
        rw [this]
      suffices h : ∃ r, ':' ∉ r ∧ ∃ N, ∀ fuel, N ≤ fuel →
          pathLoop lib m fuel ((A ++ B₁) ++ ':' :: k ++ rest') (A ++ B₁).length = some r by
        obtain ⟨r, hr, hN⟩ := h
        refine ⟨r, hr, ?_⟩
        rw [hpath]
        have := pathLoop_from_prefix lib m (A ++ B₁) (':' :: k ++ rest') r hA₁ i
          (by simp; omega) (by simpa using hN)
        simpa using this
      rcases hrest' with rfl | ⟨y, rfl⟩
      · have hfin : ':' ∉ (A ++ B₁) ++ ToString lib ((mapGet m k).getD Value.nil) := by
          simp [hA, hB₁, hv]
        refine ⟨_, hfin, ((A ++ B₁) ++ ToString lib ((mapGet m k).getD Value.nil)).length + 2,
          fun fuel hfuel => ?_⟩
        obtain ⟨f, rfl⟩ : ∃ f, fuel = f + 1 := ⟨fuel - 1, by omega⟩
        rw [pathLoop_placeholder lib m (A ++ B₁) k [] hk (Or.inl rfl) f, hrep, Replace_nil,
          List.append_nil]
        exact pathLoop_of_no_colon lib m _ hfin f _ (by omega)
      · have hcount : (Replace y (':' :: k) (ToString lib ((mapGet m k).getD Value.nil))).count
            ':' ≤ n := by
          have h1 := count_colon_Replace k _ hv y.length y (Nat.le_refl _)
          simp only [List.count_append, List.count_cons] at hB
          simp at hB
          omega
        obtain ⟨r, hr, N, hN⟩ := ih
          ((A ++ B₁) ++ ToString lib ((mapGet m k).getD Value.nil) ++ ['/'])
          (Replace y (':' :: k) (ToString lib ((mapGet m k).getD Value.nil)))
          ((A ++ B₁).length + 1) hcount (by simp [hA, hB₁, hv]) (by simp; omega)
        refine ⟨r, hr, N + 1, fun fuel hfuel => ?_⟩
        obtain ⟨f, rfl⟩ : ∃ f, fuel = f + 1 := ⟨fuel - 1, by omega⟩
        rw [pathLoop_placeholder lib m (A ++ B₁) k ('/' :: y) hk (Or.inr ⟨_, rfl⟩) f, hrep,
          Replace_slash]
        have := hN f (by omega)
        simpa using this

/-- C19: for every path and every path map none of whose converted values
contains `:`, the scan of `PathEncoder` ends (with enough fuel the encoder
returns), the result is success, and the path it leaves contains no `:`: every
marker has been consumed, also one whose key is empty or absent from the map. -/
theorem C19_path_scan_consumes_markers (lib : StdLib) (pathParams : List (GoString × Value))
    (next : EncoderChain → RequestContext → Outcome) (context : RequestContext)
    (chain : EncoderChain) (hparam : context.Param = .Path pathParams)
    (hvalues : ∀ kv ∈ pathParams, ':' ∉ ToString lib kv.2) :
    ∃ r, ':' ∉ r ∧ ∃ N, ∀ fuel, N ≤ fuel →
      PathEncoder.Encode lib fuel next context chain =
        .ret none { context.Request with Path := r } chain := by
  obtain ⟨r, hr, N, hN⟩ := pathLoop_terminates lib pathParams hvalues
    (context.Request.Path.count ':') [] context.Request.Path 0 (Nat.le_refl _) (by simp)
    (by simp)
  refine ⟨r, hr, N, fun fuel hfuel => ?_⟩
  have := hN fuel hfuel
  simp only [List.nil_append] at this
  simp [PathEncoder.Encode, hparam, this]

/-- Witness of C19: the path `/:a:b/::/x:` with the map `{"a:b": 1}`; the keys
`:` and `` are absent from the map. -/
theorem C19_path_scan_consumes_markers_witness :
    ∃ r, ':' ∉ r ∧ ∃ N, ∀ fuel, N ≤ fuel →
      PathEncoder.Encode exampleLib fuel (fun c _ => Outcome.panic c)
          (exampleContext (exampleRequest "/:a:b/::/x:")
            (.Path [("a:b".toList, .int .platform 1)]))
          ⟨[Encoder.PathEncoder], 1⟩ =
        .ret none { exampleRequest "/:a:b/::/x:" with Path := r } ⟨[Encoder.PathEncoder], 1⟩ :=
  C19_path_scan_consumes_markers exampleLib [("a:b".toList, .int .platform 1)]
    (fun c _ => Outcome.panic c)
    (exampleContext (exampleRequest "/:a:b/::/x:") (.Path [("a:b".toList, .int .platform 1)]))
    ⟨[Encoder.PathEncoder], 1⟩ rfl (by intro kv hkv; simp at hkv; subst hkv; decide)

/-! ## A scan that does not end -/

theorem repeatX_length (n : Nat) : (repeatX n).length = 2 * n := by
  induction n with
  | zero => rfl
  | succ n ih => simp [repeatX, ih]; omega

theorem repeatX_no_colon (n : Nat) : ':' ∉ repeatX n := by
  induction n with
  | zero => simp [repeatX]
  | succ n ih => simp [repeatX, ih]

/-- Two iterations from the marker of `growPath n`: the marker is replaced by
`x/:a`, which puts it back two bytes further, and the scan passes over the `/`
in front of it. -/
theorem pathLoop_grow (lib : StdLib) (n fuel : Nat) :
    pathLoop lib growParams (fuel + 2) (growPath n) (2 * n + 1) =
      pathLoop lib growParams fuel (growPath (n + 1)) (2 * (n + 1) + 1) := by
  have hA : ':' ∉ '/' :: repeatX n := by simp [repeatX_no_colon]
  have hlen : ('/' :: repeatX n).length = 2 * n + 1 := by simp [repeatX_length]
  have hstep := pathLoop_placeholder lib growParams ('/' :: repeatX n) ['a'] [] (by decide)
    (Or.inl rfl) (fuel + 1)
  have hv : ToString lib ((mapGet growParams ['a']).getD Value.nil) = "x/:a".toList := rfl
  have hrep : Replace (('/' :: repeatX n) ++ ':' :: ['a'] ++ []) (':' :: ['a']) "x/:a".toList =
      growPath (n + 1) := by
    rw [List.append_assoc, Replace_append_of_no_colon _ _ _ _ hA]
    have := Replace_match ':' ['a'] "x/:a".toList []
    simp only [List.append_nil] at this ⊢
    rw [this, Replace_nil]
    simp [growPath, repeatX]
  rw [hv, hrep, hlen] at hstep
  have hpath : ('/' :: repeatX n) ++ ':' :: ['a'] ++ [] = growPath n := by simp [growPath]
  rw [hpath] at hstep
  rw [hstep]
  have hA' : ':' ∉ '/' :: repeatX (n + 1) := by simp [repeatX_no_colon]
  have hskip := pathLoop_skip lib growParams ('/' :: repeatX (n + 1)) [':', 'a'] hA' 1
    (2 * n + 1 + 1) fuel (by simp [repeatX_length]; omega)
  have hlen' : ('/' :: repeatX (n + 1)).length = 2 * (n + 1) + 1 := by simp [repeatX_length]
  rw [hlen'] at hskip
  exact hskip

theorem pathLoop_grow_none (lib : StdLib) :
    ∀ fuel n, pathLoop lib growParams fuel (growPath n) (2 * n + 1) = none ∧
      pathLoop lib growParams (fuel + 1) (growPath n) (2 * n + 1) = none := by
  intro fuel
  induction fuel with
  | zero =>
    intro n
    refine ⟨rfl, ?_⟩
    have hlen : ('/' :: repeatX n).length = 2 * n + 1 := by simp [repeatX_length]
    have hstep := pathLoop_placeholder lib growParams ('/' :: repeatX n) ['a'] [] (by decide)
      (Or.inl rfl) 0
    have hpath : ('/' :: repeatX n) ++ ':' :: ['a'] ++ [] = growPath n := by simp [growPath]
    rw [hpath, hlen] at hstep
    rw [hstep]
    rfl
  | succ f ih =>
    intro n
    refine ⟨(ih n).2, ?_⟩
    rw [pathLoop_grow lib n f]
    exact (ih (n + 1)).1

theorem pathLoop_grow_start (lib : StdLib) (fuel : Nat) :
    pathLoop lib growParams (fuel + 1) "/:a".toList 0 =
      pathLoop lib growParams fuel (growPath 0) 1 :=
  pathLoop_skip lib growParams ['/'] [':', 'a'] (by decide) 1 0 fuel rfl

/-- C20: for the path `/:a` and the path map `{a: "x/:a"}` the scan of
`PathEncoder` never ends.  After `2n + 1` iterations the path is `/`, `n`
times `x/`, `:a` (`/x/:a`, `/x/x/:a`, ...) with the cursor on its marker,
inside the path; so for no number of iterations has the scan finished, and the
encoder does not return whatever the fuel. -/
theorem C20_path_scan_diverges :
    (∀ (lib : StdLib) (n fuel : Nat),
      pathLoop lib growParams (fuel + (2 * n + 1)) "/:a".toList 0 =
        pathLoop lib growParams fuel (growPath n) (2 * n + 1)) ∧
    (∀ n, 2 * n + 1 < (growPath n).length ∧ (growPath n)[2 * n + 1]? = some ':' ∧
      (growPath n).length < (growPath (n + 1)).length) ∧
    (growPath 0 = "/:a".toList ∧ growPath 1 = "/x/:a".toList ∧
      growPath 2 = "/x/x/:a".toList) ∧
    (∀ (lib : StdLib) (fuel : Nat), pathLoop lib growParams fuel "/:a".toList 0 = none) ∧
    (∀ (lib : StdLib) (fuel : Nat) next (context : RequestContext) chain,
      context.Param = .Path growParams → context.Request.Path = "/:a".toList →
        PathEncoder.Encode lib fuel next context chain = .outOfFuel) := by
  have hnone : ∀ (lib : StdLib) (fuel : Nat),
      pathLoop lib growParams fuel "/:a".toList 0 = none := by
    intro lib fuel
    cases fuel with
    | zero => rfl
    | succ f =>
      rw [pathLoop_grow_start]
      exact (pathLoop_grow_none lib f 0).1
  refine ⟨fun lib n => ?_, fun n => ?_, ⟨rfl, rfl, rfl⟩, hnone, ?_⟩
  · induction n with
    | zero => intro fuel; exact pathLoop_grow_start lib fuel
    | succ n ih =>
      intro fuel
      have e : fuel + (2 * (n + 1) + 1) = (fuel + 2) + (2 * n + 1) := by omega
      rw [e, ih (fuel + 2), pathLoop_grow]
  · have hlen : ∀ k, (growPath k).length = 2 * k + 3 := by
      intro k; simp [growPath, repeatX_length]
    refine ⟨by rw [hlen]; omega, ?_, by rw [hlen, hlen]; omega⟩
    have := getElem?_append_cons ('/' :: repeatX n) ':' ['a']
    simpa [growPath, repeatX_length] using this
  · intro lib fuel next context chain hparam hpath
    simp only [PathEncoder.Encode, hparam, hpath, hnone lib fuel]

end Sugar
